import Mathlib

/-!
Shallow embedding of `SCRIPT-LIBELLE.py`, a processor for retail article
labels.  Strings are modelled as `List Char`.  Each Python regular
expression used by the script is hand-compiled into a deterministic
character-level matcher (every regex in the script is backtracking-free,
which we exploit), and `re.findall` / `re.search` / `re.sub` are modelled
by explicit left-to-right scanners threading the previous character so
that word boundaries can be decided.

Unicode NFD decomposition and the `Mn` category are modelled for the
accented characters appearing in the repository (a finite table); on the
ASCII repertoire the model agrees exactly with Python.
-/

namespace Libelle

def toL (s : String) : List Char := s.data

/-- Python `\s` (ASCII part), as used by `re` on the script's data. -/
def isPyWS (c : Char) : Bool :=
  c == ' ' || c == '\t' || c == '\n' || c == '\r' || c == '\x0b' || c == '\x0c'

/-- Word characters for `\b` (Python `\w` on ASCII): alphanumerics and underscore. -/
def isWordChar (c : Char) : Bool := c.isAlphanum || c == '_'

def isWOpt : Option Char → Bool
  | none => false
  | some c => isWordChar c

/-- No word character before the current position (so `\b` holds in front of a
word character). -/
def noWordBefore (prev : Option Char) : Bool := !(isWOpt prev)

/-- No word character at the head of the remaining text (so `\b` holds after a
word character). -/
def noWordAfter : List Char → Bool
  | [] => true
  | c :: _ => !(isWordChar c)

/-- Combining diacritical marks (category `Mn` for the repertoire produced by
the NFD table below). -/
def isMn (c : Char) : Bool := 0x300 ≤ c.toNat && c.toNat ≤ 0x36F

/-- Unicode NFD decomposition, modelled for the accented characters relevant to
the repository; identity elsewhere (exact on ASCII). -/
def pyNFD (c : Char) : List Char :=
  if c = 'é' then ['e', '́'] else
  if c = 'è' then ['e', '̀'] else
  if c = 'ê' then ['e', '̂'] else
  if c = 'à' then ['a', '̀'] else
  if c = 'â' then ['a', '̂'] else
  if c = 'î' then ['i', '̂'] else
  if c = 'ô' then ['o', '̂'] else
  if c = 'û' then ['u', '̂'] else
  if c = 'ç' then ['c', '̧'] else
  if c = 'É' then ['E', '́'] else
  if c = 'È' then ['E', '̀'] else
  if c = 'À' then ['A', '̀'] else
  if c = 'Ç' then ['C', '̧'] else
  [c]

/-- The character class `[A-Za-z0-9\s,./X+-]` kept by the sanitizer. -/
def regexKeep (c : Char) : Bool :=
  c.isAlphanum || isPyWS c || c == ',' || c == '.' || c == '/' ||
    c == 'X' || c == '+' || c == '-'

/-- `re.sub(r'\s+', ' ', s)`: collapse every whitespace run to one space.
The flag records whether we are inside a run whose space was already emitted. -/
def collapseAux : Bool → List Char → List Char
  | _, [] => []
  | flag, c :: cs =>
    if isPyWS c then
      if flag then collapseAux true cs else ' ' :: collapseAux true cs
    else c :: collapseAux false cs

def collapseWS (s : List Char) : List Char := collapseAux false s

/-- Python `str.strip()` (whitespace at both ends). -/
def pyStrip (s : List Char) : List Char :=
  ((s.dropWhile isPyWS).reverse.dropWhile isPyWS).reverse

/-- ASCII uppercasing, as Python `str.upper()` acts on the sanitized
repertoire.  Written as an explicit table to keep proofs elementary. -/
def upChar : Char → Char
  | 'a' => 'A' | 'b' => 'B' | 'c' => 'C' | 'd' => 'D' | 'e' => 'E'
  | 'f' => 'F' | 'g' => 'G' | 'h' => 'H' | 'i' => 'I' | 'j' => 'J'
  | 'k' => 'K' | 'l' => 'L' | 'm' => 'M' | 'n' => 'N' | 'o' => 'O'
  | 'p' => 'P' | 'q' => 'Q' | 'r' => 'R' | 's' => 'S' | 't' => 'T'
  | 'u' => 'U' | 'v' => 'V' | 'w' => 'W' | 'x' => 'X' | 'y' => 'Y'
  | 'z' => 'Z'
  | c => c

def pyUpper (s : List Char) : List Char := s.map upChar

/-- `supprimer_accents_et_caracteres_speciaux`: NFD-normalize, delete `Mn`
marks, replace every character outside `[A-Za-z0-9\s,./X+-]` by a space,
collapse whitespace runs, strip. -/
def supprimer_accents_et_caracteres_speciaux (texte : List Char) : List Char :=
  pyStrip (collapseWS (((texte.flatMap pyNFD).filter (fun c => !(isMn c))).map
    (fun c => if regexKeep c then c else ' ')))

/-- Case-insensitive ASCII character comparison (`re.IGNORECASE`). -/
def ciEqChar (x y : Char) : Bool := upChar x == upChar y

/-- Try to read the literal `lit` at the head of `s`; returns the text read and
the rest.  `ci` selects case-insensitive comparison. -/
def stripLit (ci : Bool) : List Char → List Char → Option (List Char × List Char)
  | [], s => some ([], s)
  | _ :: _, [] => none
  | l :: ls, c :: cs =>
    if (if ci then ciEqChar c l else c == l) then
      match stripLit ci ls cs with
      | some (m, r) => some (c :: m, r)
      | none => none
    else none

/-- Match `\b lit \b` at the current position (`prev` is the character before
it). Returns the matched text and the rest.  Empty literals never match. -/
def matchWordAt (ci : Bool) (lit : List Char) (prev : Option Char)
    (s : List Char) : Option (List Char × List Char) :=
  match stripLit ci lit s with
  | some (m, rest) =>
    match m with
    | [] => none
    | c0 :: _ =>
      if (isWOpt prev != isWordChar c0) &&
         (isWordChar (m.getLastD c0) != isWOpt rest.head?) then
        some (m, rest)
      else none
  | none => none

/-- `re.search(r'\b lit \b', s)` as a boolean: scan every position. -/
def searchWordAux (lit : List Char) : Option Char → List Char → Bool
  | _, [] => false
  | prev, c :: cs =>
    (matchWordAt false lit prev (c :: cs)).isSome || searchWordAux lit (some c) cs

def searchWord (lit s : List Char) : Bool := searchWordAux lit none s

/-- The brand list, in its configured order. -/
def marques : List (List Char) :=
  [toL "CRF", toL "CARF", toL "CARREFOUR", toL "PAPERMATE", toL "PM",
   toL "SHARPIE", toL "ROTRING"]

/-- `extraire_marque`: uppercase the text, return the first brand of the list
matching as a whole word. -/
def extraire_marque (texte : List Char) : Option (List Char) :=
  marques.find? (fun m => searchWord m (pyUpper texte))

/-- The unit alternation `(?:KG|G|L|ML|CL)`; all five literals start with
distinct characters, so it is deterministic.  Returns the unit, its last
character and the rest. -/
def matchUnit : List Char → Option (List Char × Char × List Char)
  | 'K' :: 'G' :: r => some (['K', 'G'], 'G', r)
  | 'G' :: r => some (['G'], 'G', r)
  | 'L' :: r => some (['L'], 'L', r)
  | 'M' :: 'L' :: r => some (['M', 'L'], 'L', r)
  | 'C' :: 'L' :: r => some (['C', 'L'], 'L', r)
  | _ => none

/-- Result of a matcher: matched token, rest of the text, last consumed
character (to thread `\b` through the scan). -/
abbrev MRes := List Char × List Char × Char

/-- Pattern 1: `\b\d+[.,]\d+\s*(?:KG|G|L|ML|CL)\b`. -/
def m1 (prev : Option Char) (s : List Char) : Option MRes :=
  if noWordBefore prev then
    match s.span Char.isDigit with
    | (a, r1) =>
      if a.isEmpty then none else
      match r1 with
      | sep :: r2 =>
        if sep == '.' || sep == ',' then
          match r2.span Char.isDigit with
          | (b, r3) =>
            if b.isEmpty then none else
            match r3.span isPyWS with
            | (ws, r4) =>
              match matchUnit r4 with
              | some (u, lc, r5) =>
                if noWordAfter r5 then some (a ++ sep :: b ++ ws ++ u, r5, lc)
                else none
              | none => none
        else none
      | [] => none
  else none

/-- The optional decimal separator `[.,]?` of pattern 2: consume a leading
`.` or `,` when present. -/
def optSep : List Char → List Char × List Char
  | c :: r => if c == '.' || c == ',' then ([c], r) else ([], c :: r)
  | [] => ([], [])

/-- Pattern 2: `\b\d+X\d+[.,]?\d*\s*(?:KG|G|L|ML|CL)\b`. -/
def m2 (prev : Option Char) (s : List Char) : Option MRes :=
  if noWordBefore prev then
    match s.span Char.isDigit with
    | (a, r1) =>
      if a.isEmpty then none else
      match r1 with
      | 'X' :: r2 =>
        match r2.span Char.isDigit with
        | (b, r3) =>
          if b.isEmpty then none else
          match optSep r3 with
          | (sep, r4) =>
            match r4.span Char.isDigit with
            | (d, r5) =>
              match r5.span isPyWS with
              | (ws, r6) =>
                match matchUnit r6 with
                | some (u, lc, r7) =>
                  if noWordAfter r7 then
                    some (a ++ 'X' :: b ++ sep ++ d ++ ws ++ u, r7, lc)
                  else none
                | none => none
      | _ => none
  else none

/-- Pattern 3: `\b(?:[1-9]\d{2,}|[1-9]\d)\s*(?:KG|G|L|ML|CL)\b`. -/
def m3 (prev : Option Char) (s : List Char) : Option MRes :=
  if noWordBefore prev then
    match s.span Char.isDigit with
    | (a, r1) =>
      match a with
      | c :: _ :: _ =>
        if '1' ≤ c && c ≤ '9' then
          match r1.span isPyWS with
          | (ws, r2) =>
            match matchUnit r2 with
            | some (u, lc, r3) =>
              if noWordAfter r3 then some (a ++ ws ++ u, r3, lc) else none
            | none => none
        else none
      | _ => none
  else none

/-- The digit/unit part of pattern 4, after the `(?:^|\s)` guard.  The token
returned by `re.findall` is the digit concatenated with the unit (the groups),
without the whitespace matched by `\s*`. -/
def m4try (s : List Char) : Option MRes :=
  match s with
  | d :: r1 =>
    if '1' ≤ d && d ≤ '9' then
      match r1.span isPyWS with
      | (_, r2) =>
        match matchUnit r2 with
        | some (u, lc, r3) =>
          if noWordAfter r3 then some (d :: u, r3, lc) else none
        | none => none
    else none
  | [] => none

/-- Pattern 4: `(?:^|\s)([1-9])\s*(KG|G|L|ML|CL)\b`.  At the start of the
string the `^` branch applies; otherwise one whitespace character is
consumed. -/
def m4 (prev : Option Char) (s : List Char) : Option MRes :=
  match prev with
  | none =>
    match m4try s with
    | some res => some res
    | none =>
      match s with
      | w :: r => if isPyWS w then m4try r else none
      | [] => none
  | some _ =>
    match s with
    | w :: r => if isPyWS w then m4try r else none
    | [] => none

/-- Pattern 5: `\b\d+/\d+\s*(?:KG|G|L|ML|CL)\b`. -/
def m5 (prev : Option Char) (s : List Char) : Option MRes :=
  if noWordBefore prev then
    match s.span Char.isDigit with
    | (a, r1) =>
      if a.isEmpty then none else
      match r1 with
      | '/' :: r2 =>
        match r2.span Char.isDigit with
        | (b, r3) =>
          if b.isEmpty then none else
          match r3.span isPyWS with
          | (ws, r4) =>
            match matchUnit r4 with
            | some (u, lc, r5) =>
              if noWordAfter r5 then some (a ++ '/' :: b ++ ws ++ u, r5, lc)
              else none
            | none => none
      | _ => none
  else none

/-- Pattern 6: `\b\d+/\d+\b`. -/
def m6 (prev : Option Char) (s : List Char) : Option MRes :=
  if noWordBefore prev then
    match s.span Char.isDigit with
    | (a, r1) =>
      if a.isEmpty then none else
      match r1 with
      | '/' :: r2 =>
        match r2.span Char.isDigit with
        | (b, r3) =>
          if b.isEmpty then none else
          if noWordAfter r3 then some (a ++ '/' :: b, r3, b.getLastD '0')
          else none
      | _ => none
  else none

/-- `re.findall`: scan left to right, restart after each match, advance one
character on failure.  Fuel bounds the recursion; every matcher consumes at
least one character, so `length + 1` fuel is exact. -/
def findallAux (m : Option Char → List Char → Option MRes) :
    Nat → Option Char → List Char → List (List Char)
  | 0, _, _ => []
  | _ + 1, _, [] => []
  | fuel + 1, prev, c :: cs =>
    match m prev (c :: cs) with
    | some (tok, rest, lc) => tok :: findallAux m fuel (some lc) rest
    | none => findallAux m fuel (some c) cs

def pyFindall (m : Option Char → List Char → Option MRes) (s : List Char) :
    List (List Char) :=
  findallAux m (s.length + 1) none s

/-- `re.sub(r'(\d+)\.(\d+)', r'\1,\2', s)`: replace a dot between two digit
runs by a comma. -/
def dotToCommaAux : Nat → List Char → List Char
  | 0, s => s
  | _ + 1, [] => []
  | fuel + 1, c :: cs =>
    if c.isDigit then
      match (c :: cs).span Char.isDigit with
      | (run, r1) =>
        match r1 with
        | '.' :: r2 =>
          match r2.span Char.isDigit with
          | (run2, r3) =>
            if run2.isEmpty then run ++ '.' :: dotToCommaAux fuel r2
            else run ++ ',' :: run2 ++ dotToCommaAux fuel r3
        | _ => run ++ dotToCommaAux fuel r1
    else c :: dotToCommaAux fuel cs

def dotToComma (s : List Char) : List Char := dotToCommaAux (s.length + 1) s

/-- Python `in` on strings: substring test. -/
def containsSub (needle : List Char) : List Char → Bool
  | [] => needle.isEmpty
  | c :: cs => needle.isPrefixOf (c :: cs) || containsSub needle cs

/-- Tokens collected by patterns 1→5 in order, on the already uppercased
text (patterns 1 and 2 with the dot normalized to a comma). -/
def tokensRegles1a5 (t : List Char) : List (List Char) :=
  (pyFindall m1 t).map dotToComma ++ (pyFindall m2 t).map dotToComma ++
    pyFindall m3 t ++ pyFindall m4 t ++ pyFindall m5 t

/-- Tokens found by the six patterns before deduplication: patterns 1→5, then
pattern 6 matches appended only when not contained in a token of the running
list. -/
def tokensAvantDedup (t : List Char) : List (List Char) :=
  (pyFindall m6 t).foldl
    (fun acc m => if acc.any (fun gv => containsSub m gv) then acc else acc ++ [m])
    (tokensRegles1a5 t)

/-- The final duplicate-removal loop of `extraire_grammage_volume`. -/
def pyDedup (l : List (List Char)) : List (List Char) :=
  l.foldl (fun acc gv => if acc.contains gv then acc else acc ++ [gv]) []

/-- `extraire_grammage_volume`. -/
def extraire_grammage_volume (texte : List Char) : List (List Char) :=
  pyDedup (tokensAvantDedup (pyUpper texte))

/-- `gv.replace(',', '.')`. -/
def dotVariant (gv : List Char) : List Char :=
  gv.map (fun c => if c = ',' then '.' else c)

/-- `re.sub(r'\b lit \b', '', s, flags=re.IGNORECASE)`: remove every
whole-word occurrence, scanning left to right and resuming after each match. -/
def subWordAux (lit : List Char) : Nat → Option Char → List Char → List Char
  | 0, _, s => s
  | _ + 1, _, [] => []
  | fuel + 1, prev, c :: cs =>
    match matchWordAt true lit prev (c :: cs) with
    | some (m, rest) => subWordAux lit fuel (m.getLastD c) rest
    | none => c :: subWordAux lit fuel (some c) cs

def subWordLit (lit s : List Char) : List Char :=
  subWordAux lit (s.length + 1) none s

/-- The literals removed from the product name: the brand, then for each
quantity its comma spelling followed by its dot spelling, in list order. -/
def removalLits (marque : Option (List Char)) (gvs : List (List Char)) :
    List (List Char) :=
  (match marque with | some m => [m] | none => []) ++
    gvs.flatMap (fun gv => [gv, dotVariant gv])

def applySubs (lits : List (List Char)) (s : List Char) : List Char :=
  lits.foldl (fun acc l => subWordLit l acc) s

/-- Step 4 of `traiter_libelle`: the product name, with brand and quantities
removed and whitespace re-normalized. -/
def nom_produit (nettoye : List Char) (marque : Option (List Char))
    (gvs : List (List Char)) : List Char :=
  pyStrip (collapseWS (applySubs (removalLits marque gvs) nettoye))

def joinSpace : List (List Char) → List Char
  | [] => []
  | [p] => p
  | p :: ps => p ++ ' ' :: joinSpace ps

/-- `traiter_libelle`: sanitize, extract brand and quantities, build the
product name, assemble `MARQUE PRODUIT GRAMMAGES`, uppercase, re-normalize
whitespace. -/
def traiter_libelle (libelle_original : List Char) : List Char :=
  let nettoye := supprimer_accents_et_caracteres_speciaux libelle_original
  let marque := extraire_marque nettoye
  let gvs := extraire_grammage_volume nettoye
  let nom := nom_produit nettoye marque gvs
  let parties := (match marque with | some m => [m] | none => []) ++
    (if nom.isEmpty then [] else [nom]) ++ gvs
  pyStrip (collapseWS (pyUpper (joinSpace parties)))

/-! ## Structure of sanitized text -/

/-- Characters that may appear in a sanitized text: the allowed non-whitespace
characters, plus the single space. -/
def goodChar (c : Char) : Bool :=
  c.isAlphanum || c == ',' || c == '.' || c == '/' || c == 'X' || c == '+' ||
    c == '-' || c == ' '

/-- No two adjacent whitespace characters. -/
def noDbl : List Char → Bool
  | c :: d :: r => (!(isPyWS c && isPyWS d)) && noDbl (d :: r)
  | _ => true

def headNotWS (s : List Char) : Bool :=
  match s.head? with
  | some c => !(isPyWS c)
  | none => true

/-- Shape of a sanitized text: only good characters, no double whitespace, no
leading or trailing whitespace. -/
def sanForm (s : List Char) : Bool :=
  s.all goodChar && noDbl s && headNotWS s && headNotWS s.reverse

theorem goodChar_of_keep {c : Char} (h1 : regexKeep c = true)
    (h2 : isPyWS c = false) : goodChar c = true := by
  simp [regexKeep, h2] at h1
  simp [goodChar]
  tauto

theorem goodChar_ws {c : Char} (h1 : goodChar c = true)
    (h2 : isPyWS c = true) : c = ' ' := by
  simp [isPyWS] at h2
  rcases h2 with ((((rfl | rfl) | rfl) | rfl) | rfl) | rfl
  · rfl
  all_goals exact absurd h1 (by decide)

theorem mem_collapseAux {flag : Bool} {u : List Char} {c : Char}
    (hc : c ∈ collapseAux flag u) :
    c = ' ' ∨ (c ∈ u ∧ isPyWS c = false) := by
  induction u generalizing flag with
  | nil => simp [collapseAux] at hc
  | cons a as ih =>
    by_cases ha : isPyWS a = true
    · cases flag with
      | true =>
        simp [collapseAux, ha] at hc
        rcases ih hc with h | ⟨h1, h2⟩
        · exact Or.inl h
        · exact Or.inr ⟨by simp [h1], h2⟩
      | false =>
        simp [collapseAux, ha] at hc
        rcases hc with rfl | hc
        · exact Or.inl rfl
        · rcases ih hc with h | ⟨h1, h2⟩
          · exact Or.inl h
          · exact Or.inr ⟨by simp [h1], h2⟩
    · simp [collapseAux, ha] at hc
      rcases hc with rfl | hc
      · exact Or.inr ⟨by simp, by simp at ha; simp [ha]⟩
      · rcases ih hc with h | ⟨h1, h2⟩
        · exact Or.inl h
        · exact Or.inr ⟨by simp [h1], h2⟩

theorem headNotWS_collapseAux_true (u : List Char) :
    headNotWS (collapseAux true u) = true := by
  induction u with
  | nil => rfl
  | cons a as ih =>
    by_cases ha : isPyWS a = true
    · simpa [collapseAux, ha] using ih
    · simp only [collapseAux, ha]
      simp only [Bool.false_eq_true, if_false, headNotWS, List.head?_cons]
      simp [ha]

theorem noDbl_cons_of {c : Char} {X : List Char} (hX : noDbl X = true)
    (h : isPyWS c = false ∨ headNotWS X = true) : noDbl (c :: X) = true := by
  cases X with
  | nil => rfl
  | cons d r =>
    have hcd : (isPyWS c && isPyWS d) = false := by
      rcases h with h | h
      · simp [h]
      · simp only [headNotWS, List.head?_cons] at h
        have hd : isPyWS d = false := by simpa using h
        simp [hd]
    simp only [noDbl, hcd, Bool.not_false, Bool.true_and]
    exact hX

theorem noDbl_collapseAux (flag : Bool) (u : List Char) :
    noDbl (collapseAux flag u) = true := by
  induction u generalizing flag with
  | nil => rfl
  | cons a as ih =>
    by_cases ha : isPyWS a = true
    · cases flag with
      | true => simpa [collapseAux, ha] using ih true
      | false =>
        simp only [collapseAux, ha, if_true]
        exact noDbl_cons_of (ih true) (Or.inr (headNotWS_collapseAux_true as))
    · simp only [collapseAux, ha, Bool.false_eq_true, if_false]
      exact noDbl_cons_of (ih false) (Or.inl (by simpa using ha))

theorem noDbl_tail {x : Char} {xs : List Char} (h : noDbl (x :: xs) = true) :
    noDbl xs = true := by
  cases xs with
  | nil => rfl
  | cons d r => simp only [noDbl, Bool.and_eq_true] at h; exact h.2

theorem noDbl_append_right {a b : List Char} (h : noDbl (a ++ b) = true) :
    noDbl b = true := by
  induction a with
  | nil => exact h
  | cons x a' ih => exact ih (noDbl_tail h)

theorem noDbl_iff_chain {l : List Char} :
    noDbl l = true ↔
      List.Chain' (fun a b => ¬(isPyWS a = true ∧ isPyWS b = true)) l := by
  induction l with
  | nil => simp [noDbl]
  | cons c cs ih =>
    cases cs with
    | nil => simp [noDbl]
    | cons d r =>
      rw [List.chain'_cons]
      constructor
      · intro h
        have h1 : (!(isPyWS c && isPyWS d)) = true := by
          simp only [noDbl, Bool.and_eq_true] at h
          exact h.1
        have h2 := noDbl_tail h
        refine ⟨?_, ih.mp h2⟩
        intro ⟨x, y⟩
        simp [x, y] at h1
      · intro ⟨h1, h2⟩
        have hcd : (isPyWS c && isPyWS d) = false := by
          cases hc : isPyWS c <;> cases hd : isPyWS d <;> simp_all
        simp only [noDbl, hcd, Bool.not_false, Bool.true_and]
        exact ih.mpr h2

theorem noDbl_reverse (l : List Char) : noDbl l.reverse = noDbl l := by
  have h : noDbl l.reverse = true ↔ noDbl l = true := by
    rw [noDbl_iff_chain, noDbl_iff_chain, List.chain'_reverse]
    constructor
    · intro h
      exact h.imp (fun a b hab ⟨x, y⟩ => hab ⟨y, x⟩)
    · intro h
      exact h.imp (fun a b hab ⟨x, y⟩ => hab ⟨y, x⟩)
  cases h1 : noDbl l
  · cases h2 : noDbl l.reverse
    · rfl
    · exact absurd (h.mp h2) (by simp [h1])
  · exact h.mpr h1

theorem headNotWS_dropWhile (s : List Char) :
    headNotWS (s.dropWhile isPyWS) = true := by
  have h := List.head?_dropWhile_not isPyWS s
  unfold headNotWS
  cases hh : (s.dropWhile isPyWS).head? with
  | none => rfl
  | some c =>
    simp only [hh] at h
    simp [h]

theorem mem_pyStrip {s : List Char} {c : Char} (h : c ∈ pyStrip s) : c ∈ s := by
  unfold pyStrip at h
  have h1 := List.mem_reverse.mp h
  have h2 := (List.dropWhile_suffix isPyWS).subset h1
  have h3 := List.mem_reverse.mp h2
  exact (List.dropWhile_suffix isPyWS).subset h3

theorem noDbl_pyStrip {s : List Char} (h : noDbl s = true) :
    noDbl (pyStrip s) = true := by
  unfold pyStrip
  rw [noDbl_reverse]
  have h1 : noDbl (s.dropWhile isPyWS) = true := by
    obtain ⟨t, ht⟩ := List.dropWhile_suffix (l := s) isPyWS
    exact noDbl_append_right (ht ▸ h)
  have h2 : noDbl (s.dropWhile isPyWS).reverse = true := by
    rw [noDbl_reverse]
    exact h1
  obtain ⟨t, ht⟩ := List.dropWhile_suffix (l := (s.dropWhile isPyWS).reverse) isPyWS
  exact noDbl_append_right (ht ▸ h2)

theorem pyStrip_head (s : List Char) : headNotWS (pyStrip s) = true := by
  unfold pyStrip headNotWS
  rw [List.head?_reverse]
  cases hBe : ((s.dropWhile isPyWS).reverse.dropWhile isPyWS).getLast? with
  | none => rfl
  | some b =>
    obtain ⟨t, ht⟩ := List.dropWhile_suffix (l := (s.dropWhile isPyWS).reverse) isPyWS
    have hne : (s.dropWhile isPyWS).reverse.dropWhile isPyWS ≠ [] := by
      intro h0
      rw [h0] at hBe
      simp at hBe
    have h2 : (s.dropWhile isPyWS).reverse.getLast? = some b := by
      rw [← ht, List.getLast?_append_of_ne_nil t hne, hBe]
    rw [List.getLast?_reverse] at h2
    have h4 := headNotWS_dropWhile s
    unfold headNotWS at h4
    rw [h2] at h4
    exact h4

theorem pyStrip_last (s : List Char) : headNotWS (pyStrip s).reverse = true := by
  have h : (pyStrip s).reverse = (s.dropWhile isPyWS).reverse.dropWhile isPyWS :=
    List.reverse_reverse _
  rw [h]
  exact headNotWS_dropWhile _

theorem pyNFD_good {c : Char} (h : goodChar c = true) : pyNFD c = [c] := by
  have hne : ∀ d : Char, goodChar d = false → ¬(c = d) := by
    intro d hd he
    rw [he, hd] at h
    exact absurd h (by simp)
  unfold pyNFD
  rw [if_neg (hne 'é' (by decide)), if_neg (hne 'è' (by decide)),
    if_neg (hne 'ê' (by decide)), if_neg (hne 'à' (by decide)),
    if_neg (hne 'â' (by decide)), if_neg (hne 'î' (by decide)),
    if_neg (hne 'ô' (by decide)), if_neg (hne 'û' (by decide)),
    if_neg (hne 'ç' (by decide)), if_neg (hne 'É' (by decide)),
    if_neg (hne 'È' (by decide)), if_neg (hne 'À' (by decide)),
    if_neg (hne 'Ç' (by decide))]

theorem isAlphanum_toNat_le {c : Char} (h : c.isAlphanum = true) :
    c.toNat ≤ 122 := by
  unfold Char.isAlphanum Char.isAlpha Char.isUpper Char.isLower Char.isDigit at h
  simp only [Bool.or_eq_true, Bool.and_eq_true, decide_eq_true_eq] at h
  rcases h with (⟨h1, h2⟩ | ⟨h1, h2⟩) | ⟨h1, h2⟩ <;>
    · have h3 : c.val.toNat ≤ ((122 : UInt32)).toNat :=
        le_trans (by exact h2) (by decide)
      simpa using h3

theorem isMn_good {c : Char} (h : goodChar c = true) : isMn c = false := by
  have hle : c.toNat ≤ 122 := by
    simp only [goodChar, Bool.or_eq_true, beq_iff_eq] at h
    rcases h with ((((((h | rfl) | rfl) | rfl) | rfl) | rfl) | rfl) | rfl
    · exact isAlphanum_toNat_le h
    all_goals decide
  simp only [isMn, Bool.and_eq_true, decide_eq_true_eq]
  simp only [Bool.and_eq_false_iff]
  left
  simp only [decide_eq_false_iff_not]
  omega

theorem regexKeep_good {c : Char} (h : goodChar c = true) :
    regexKeep c = true := by
  simp only [goodChar, Bool.or_eq_true, beq_iff_eq] at h
  simp only [regexKeep, isPyWS, Bool.or_eq_true, beq_iff_eq]
  tauto

theorem flatMap_pyNFD_id {s : List Char} (h : ∀ c ∈ s, goodChar c = true) :
    s.flatMap pyNFD = s := by
  induction s with
  | nil => rfl
  | cons c cs ih =>
    rw [List.flatMap_cons, pyNFD_good (h c (by simp)),
      ih (fun x hx => h x (by simp [hx]))]
    rfl

theorem map_keep_id {s : List Char} (h : ∀ c ∈ s, regexKeep c = true) :
    s.map (fun c => if regexKeep c then c else ' ') = s := by
  induction s with
  | nil => rfl
  | cons c cs ih =>
    simp only [List.map_cons, h c (by simp), if_true,
      ih (fun x hx => h x (by simp [hx]))]

theorem collapseAux_id {s : List Char} (hg : ∀ c ∈ s, goodChar c = true)
    (hd : noDbl s = true) :
    collapseAux false s = s ∧ (headNotWS s = true → collapseAux true s = s) := by
  induction s with
  | nil => exact ⟨rfl, fun _ => rfl⟩
  | cons c cs ih =>
    have hg' : ∀ x ∈ cs, goodChar x = true := fun x hx => hg x (by simp [hx])
    obtain ⟨ih1, ih2⟩ := ih hg' (noDbl_tail hd)
    by_cases hc : isPyWS c = true
    · have hsp : c = ' ' := goodChar_ws (hg c (by simp)) hc
      have hcs : headNotWS cs = true := by
        cases cs with
        | nil => rfl
        | cons d r =>
          have h1 : (!(isPyWS c && isPyWS d)) = true := by
            simp only [noDbl, Bool.and_eq_true] at hd
            exact hd.1
          simp only [hc, Bool.true_and] at h1
          simp only [headNotWS, List.head?_cons]
          exact h1
      constructor
      · simp only [collapseAux, hc, if_true]
        rw [ih2 hcs]
        simp [hsp]
      · intro hh
        simp only [headNotWS, List.head?_cons, hc] at hh
        exact absurd hh (by simp)
    · have hc' : isPyWS c = false := by simpa using hc
      constructor
      · simp only [collapseAux, hc', Bool.false_eq_true, if_false, ih1]
      · intro _
        simp only [collapseAux, hc', Bool.false_eq_true, if_false, ih1]

theorem dropWhile_id_of_headNotWS {s : List Char} (h : headNotWS s = true) :
    s.dropWhile isPyWS = s := by
  cases s with
  | nil => rfl
  | cons c cs =>
    simp only [headNotWS, List.head?_cons] at h
    have hc : isPyWS c = false := by simpa using h
    simp [List.dropWhile_cons, hc]

theorem pyStrip_id {s : List Char} (h1 : headNotWS s = true)
    (h2 : headNotWS s.reverse = true) : pyStrip s = s := by
  unfold pyStrip
  rw [dropWhile_id_of_headNotWS h1, dropWhile_id_of_headNotWS h2,
    List.reverse_reverse]

theorem san_of_sanForm {s : List Char} (h : sanForm s = true) :
    supprimer_accents_et_caracteres_speciaux s = s := by
  simp only [sanForm, Bool.and_eq_true, List.all_eq_true] at h
  obtain ⟨⟨⟨hg, hd⟩, hh⟩, hl⟩ := h
  have hg' : ∀ c ∈ s, goodChar c = true := fun c hc => by simpa using hg c hc
  unfold supprimer_accents_et_caracteres_speciaux
  rw [flatMap_pyNFD_id hg']
  rw [List.filter_eq_self.mpr (fun c hc => by simp [isMn_good (hg' c hc)])]
  rw [map_keep_id (fun c hc => regexKeep_good (hg' c hc))]
  rw [show collapseWS s = s from (collapseAux_id hg' hd).1]
  exact pyStrip_id hh hl

theorem sanForm_san (s : List Char) :
    sanForm (supprimer_accents_et_caracteres_speciaux s) = true := by
  unfold supprimer_accents_et_caracteres_speciaux
  simp only [sanForm, Bool.and_eq_true, List.all_eq_true]
  refine ⟨⟨⟨?_, ?_⟩, ?_⟩, ?_⟩
  · intro c hc
    have hc' := mem_pyStrip hc
    rcases mem_collapseAux hc' with rfl | ⟨hmem, hws⟩
    · decide
    · obtain ⟨a, _, ha⟩ := List.mem_map.mp hmem
      by_cases hk : regexKeep a = true
      · rw [if_pos hk] at ha
        subst ha
        simpa using goodChar_of_keep hk hws
      · rw [if_neg hk] at ha
        subst ha
        decide
  · exact noDbl_pyStrip (noDbl_collapseAux false _)
  · exact pyStrip_head _
  · exact pyStrip_last _

/-! ## Matcher infrastructure -/

def AllDigits (l : List Char) : Prop := ∀ c ∈ l, c.isDigit = true

def AllWS (l : List Char) : Prop := ∀ c ∈ l, isPyWS c = true

/-- The five unit literals of the script. -/
def UnitTok (u : List Char) : Prop :=
  u = toL "KG" ∨ u = toL "G" ∨ u = toL "L" ∨ u = toL "ML" ∨ u = toL "CL"

/-- The character just before the position reached after reading `l`, when the
character before `l` was `prev`. -/
def lastOpt (prev : Option Char) (l : List Char) : Option Char :=
  match l.getLast? with
  | some c => some c
  | none => prev

theorem lastOpt_chain {prev : Option Char} {cons pre' : List Char} {lc : Char}
    (h : cons.getLast? = some lc) :
    lastOpt prev (cons ++ pre') = lastOpt (some lc) pre' := by
  cases pre' with
  | nil => simp [lastOpt, h]
  | cons p ps =>
    unfold lastOpt
    rw [List.getLast?_append_of_ne_nil cons (by simp)]
    obtain ⟨q, hq⟩ := Option.isSome_iff_exists.mp
      (List.getLast?_isSome.mpr (by simp : (p :: ps) ≠ []))
    simp [hq]

theorem lastOpt_cons {prev : Option Char} {c : Char} {pre' : List Char} :
    lastOpt prev (c :: pre') = lastOpt (some c) pre' :=
  @lastOpt_chain prev [c] pre' c rfl

theorem span_spec {p : Char → Bool} {s a b : List Char}
    (h : s.span p = (a, b)) :
    s = a ++ b ∧ (∀ c ∈ a, p c = true) ∧
      (∀ c, b.head? = some c → p c = false) := by
  rw [List.span_eq_take_drop] at h
  obtain ⟨rfl, rfl⟩ := Prod.mk.injEq .. ▸ h
  refine ⟨(List.takeWhile_append_dropWhile p s).symm, ?_, ?_⟩
  · intro c hc
    exact List.mem_takeWhile_imp hc
  · intro c hc
    have h2 := List.head?_dropWhile_not p s
    rw [hc] at h2
    exact h2

theorem takeWhile_append_eq {p : Char → Bool} {a b : List Char}
    (ha : ∀ c ∈ a, p c = true)
    (hb : ∀ c, b.head? = some c → p c = false) :
    (a ++ b).takeWhile p = a := by
  induction a with
  | nil =>
    cases b with
    | nil => rfl
    | cons c cs =>
      simp [List.takeWhile_cons, hb c rfl]
  | cons x a' ih =>
    simp only [List.cons_append, List.takeWhile_cons, ha x (by simp), if_true]
    rw [ih (fun c hc => ha c (by simp [hc]))]

theorem dropWhile_append_eq {p : Char → Bool} {a b : List Char}
    (ha : ∀ c ∈ a, p c = true)
    (hb : ∀ c, b.head? = some c → p c = false) :
    (a ++ b).dropWhile p = b := by
  induction a with
  | nil =>
    cases b with
    | nil => rfl
    | cons c cs =>
      simp [List.dropWhile_cons, hb c rfl]
  | cons x a' ih =>
    simp only [List.cons_append, List.dropWhile_cons, ha x (by simp), if_true]
    exact ih (fun c hc => ha c (by simp [hc]))

theorem span_append {p : Char → Bool} {a b : List Char}
    (ha : ∀ c ∈ a, p c = true)
    (hb : ∀ c, b.head? = some c → p c = false) :
    (a ++ b).span p = (a, b) := by
  rw [List.span_eq_take_drop, takeWhile_append_eq ha hb, dropWhile_append_eq ha hb]

theorem matchUnit_eq_some {s u : List Char} {lc : Char} {r : List Char}
    (h : matchUnit s = some (u, lc, r)) :
    s = u ++ r ∧ UnitTok u ∧ u.getLast? = some lc ∧
      (∀ c ∈ u, c.isDigit = false ∧ isWordChar c = true ∧ isPyWS c = false) := by
  unfold matchUnit at h
  split at h
  case h_6 => exact Option.noConfusion h
  all_goals
    injection h with h1
  all_goals
    injection h1 with h2 h3
  all_goals
    injection h3 with h4 h5
  all_goals
    subst h2
  all_goals
    subst h4
  all_goals
    subst h5
  all_goals
    exact ⟨rfl, by unfold UnitTok; decide, rfl, by decide⟩

theorem matchUnit_of_unitTok {u r : List Char} (hu : UnitTok u) :
    ∃ lc, matchUnit (u ++ r) = some (u, lc, r) ∧ u.getLast? = some lc := by
  rcases hu with rfl | rfl | rfl | rfl | rfl
  · exact ⟨'G', rfl, rfl⟩
  · exact ⟨'G', rfl, rfl⟩
  · exact ⟨'L', rfl, rfl⟩
  · exact ⟨'L', rfl, rfl⟩
  · exact ⟨'L', rfl, rfl⟩

theorem findallAux_sound {m : Option Char → List Char → Option MRes}
    (Hm : ∀ prev s tok rest lc, m prev s = some (tok, rest, lc) →
      ∃ cons, s = cons ++ rest ∧ cons.getLast? = some lc) :
    ∀ fuel prev s tok, tok ∈ findallAux m fuel prev s →
      ∃ pre rest r2 lc, s = pre ++ rest ∧
        m (lastOpt prev pre) rest = some (tok, r2, lc) := by
  intro fuel
  induction fuel with
  | zero =>
    intro prev s tok h
    simp [findallAux] at h
  | succ n ih =>
    intro prev s tok h
    cases s with
    | nil => simp [findallAux] at h
    | cons c cs =>
      cases hm : m prev (c :: cs) with
      | some res =>
        obtain ⟨tok0, rest0, lc0⟩ := res
        simp only [findallAux, hm] at h
        rcases List.mem_cons.mp h with rfl | h
        · exact ⟨[], c :: cs, rest0, lc0, rfl, hm⟩
        · obtain ⟨pre', rest', r2, lc, hsplit, hm'⟩ := ih (some lc0) rest0 tok h
          obtain ⟨cons, hcons, hlast⟩ := Hm prev (c :: cs) tok0 rest0 lc0 hm
          refine ⟨cons ++ pre', rest', r2, lc, ?_, ?_⟩
          · rw [hcons, hsplit, List.append_assoc]
          · rw [lastOpt_chain hlast]
            exact hm'
      | none =>
        simp only [findallAux, hm] at h
        obtain ⟨pre', rest', r2, lc, hsplit, hm'⟩ := ih (some c) cs tok h
        refine ⟨c :: pre', rest', r2, lc, by simp [hsplit], ?_⟩
        rw [lastOpt_cons]
        exact hm'

theorem isPyWS_not_digit {c : Char} (h : isPyWS c = true) : c.isDigit = false := by
  simp only [isPyWS, Bool.or_eq_true, beq_iff_eq] at h
  rcases h with ((((rfl | rfl) | rfl) | rfl) | rfl) | rfl <;> decide

theorem isPyWS_not_word {c : Char} (h : isPyWS c = true) : isWordChar c = false := by
  simp only [isPyWS, Bool.or_eq_true, beq_iff_eq] at h
  rcases h with ((((rfl | rfl) | rfl) | rfl) | rfl) | rfl <;> decide

theorem digit_is_word {c : Char} (h : c.isDigit = true) : isWordChar c = true := by
  simp [isWordChar, Char.isAlphanum, h]

theorem digit_toNat_ge {c : Char} (h : c.isDigit = true) : 48 ≤ c.toNat := by
  unfold Char.isDigit at h
  simp only [Bool.and_eq_true, decide_eq_true_eq] at h
  have h2 : ((48 : UInt32)).toNat ≤ c.val.toNat := h.1
  simpa using h2

theorem digit_not_ws {c : Char} (h : c.isDigit = true) : isPyWS c = false := by
  have h48 := digit_toNat_ge h
  simp only [isPyWS, Bool.or_eq_false_iff]
  refine ⟨⟨⟨⟨⟨?_, ?_⟩, ?_⟩, ?_⟩, ?_⟩, ?_⟩ <;>
    · simp only [beq_eq_false_iff_ne, Ne]
      intro h0
      subst h0
      simp at h48

/-- What the unit alternation can start with: never a digit, never whitespace. -/
theorem unitTok_head {u : List Char} (hu : UnitTok u) :
    ∀ c, (u.head? = some c) → c.isDigit = false ∧ isPyWS c = false := by
  rcases hu with rfl | rfl | rfl | rfl | rfl <;>
    (intro c hc
     injection hc with hc
     subst hc
     exact ⟨by decide, by decide⟩)

theorem unitTok_ne_nil {u : List Char} (hu : UnitTok u) : u ≠ [] := by
  rcases hu with rfl | rfl | rfl | rfl | rfl <;> simp [toL]

theorem unitTok_chars {u : List Char} (hu : UnitTok u) :
    ∀ c ∈ u, c.isDigit = false ∧ isWordChar c = true ∧ isPyWS c = false := by
  rcases hu with rfl | rfl | rfl | rfl | rfl <;> decide

/-- Rule 3 occurrence at the current position: a run of at least two digits,
starting with a nonzero digit, then whitespace, then a unit, with word
boundaries on both sides. -/
def Occ3At (prev : Option Char) (s tok : List Char) : Prop :=
  ∃ a ws u suf, s = a ++ ws ++ u ++ suf ∧ tok = a ++ ws ++ u ∧
    AllDigits a ∧ 2 ≤ a.length ∧
    (∃ c cs, a = c :: cs ∧ ('1' ≤ c ∧ c ≤ '9')) ∧
    AllWS ws ∧ UnitTok u ∧
    isWOpt prev = false ∧ noWordAfter suf = true

theorem m3_eq_some {prev : Option Char} {s tok rest : List Char} {lc : Char}
    (h : m3 prev s = some (tok, rest, lc)) :
    Occ3At prev s tok ∧ s = tok ++ rest ∧ tok.getLast? = some lc := by
  unfold m3 at h
  by_cases hb : noWordBefore prev = true
  swap
  · rw [if_neg hb] at h
    exact Option.noConfusion h
  rw [if_pos hb] at h
  rcases hsp : s.span Char.isDigit with ⟨a, r1⟩
  rw [hsp] at h
  dsimp only at h
  obtain ⟨hs1, hadig, hr1head⟩ := span_spec hsp
  match a, h with
  | c :: c2 :: t, h =>
    dsimp only at h
    by_cases hc : ('1' ≤ c && c ≤ '9') = true
    swap
    · rw [if_neg hc] at h
      exact Option.noConfusion h
    rw [if_pos hc] at h
    rcases hsp2 : r1.span isPyWS with ⟨ws, r2⟩
    rw [hsp2] at h
    dsimp only at h
    obtain ⟨hs2, hws, hr2head⟩ := span_spec hsp2
    cases hmu : matchUnit r2 with
    | none =>
      rw [hmu] at h
      exact Option.noConfusion h
    | some res =>
      obtain ⟨u, lc0, r3⟩ := res
      rw [hmu] at h
      dsimp only at h
      obtain ⟨hs3, hu, hulast, _⟩ := matchUnit_eq_some hmu
      by_cases hafter : noWordAfter r3 = true
      swap
      · rw [if_neg hafter] at h
        exact Option.noConfusion h
      rw [if_pos hafter] at h
      injection h with h1
      injection h1 with htok h2
      injection h2 with hrest hlc
      subst htok
      subst hrest
      subst hlc
      simp only [Bool.and_eq_true, decide_eq_true_eq] at hc
      constructor
      · refine ⟨c :: c2 :: t, ws, u, r3, ?_, rfl, hadig, by simp, ⟨c, c2 :: t, rfl, hc⟩,
          hws, hu, ?_, hafter⟩
        · rw [hs1, hs2, hs3]
          simp [List.append_assoc]
        · simpa [noWordBefore] using hb
      · constructor
        · rw [hs1, hs2, hs3]
          simp [List.append_assoc]
        · rw [List.getLast?_append_of_ne_nil _ (unitTok_ne_nil hu)]
          exact hulast

theorem m3_complete {prev : Option Char} {a ws u suf : List Char}
    (hadig : AllDigits a) (hlen : 2 ≤ a.length)
    (hnz : ∃ c cs, a = c :: cs ∧ ('1' ≤ c ∧ c ≤ '9'))
    (hws : AllWS ws) (hu : UnitTok u)
    (hb : isWOpt prev = false) (hafter : noWordAfter suf = true) :
    ∃ lc, m3 prev (a ++ ws ++ u ++ suf) = some (a ++ ws ++ u, suf, lc) := by
  obtain ⟨lc, hmu, hulast⟩ := matchUnit_of_unitTok (r := suf) hu
  refine ⟨lc, ?_⟩
  unfold m3
  rw [if_pos (by simp [noWordBefore, hb])]
  have hsp : (a ++ ws ++ u ++ suf).span Char.isDigit = (a, ws ++ (u ++ suf)) := by
    rw [List.append_assoc, List.append_assoc]
    apply span_append hadig
    intro c hc
    cases ws with
    | nil =>
      simp only [List.nil_append] at hc
      have hc' : u.head? = some c := by
        cases u with
        | nil => exact absurd rfl (unitTok_ne_nil hu)
        | cons u0 ur => simpa using hc
      exact (unitTok_head hu c hc').1
    | cons w wr =>
      simp only [List.cons_append, List.head?_cons, Option.some.injEq] at hc
      subst hc
      exact isPyWS_not_digit (hws w (by simp))
  rw [hsp]
  dsimp only
  obtain ⟨c, cs, rfl, hc1, hc2⟩ := hnz
  cases cs with
  | nil => exact absurd hlen (by simp)
  | cons c2 t =>
    dsimp only
    rw [if_pos (by simp [hc1, hc2])]
    have hsp2 : (ws ++ (u ++ suf)).span isPyWS = (ws, u ++ suf) := by
      apply span_append hws
      intro d hd
      have hd' : u.head? = some d := by
        cases u with
        | nil => exact absurd rfl (unitTok_ne_nil hu)
        | cons u0 ur => simpa using hd
      exact (unitTok_head hu d hd').2
    rw [hsp2]
    dsimp only
    rw [hmu]
    dsimp only
    rw [if_pos hafter]

theorem getLast?_some_mem {l : List Char} {a : Char} (h : l.getLast? = some a) :
    a ∈ l := by
  induction l with
  | nil => exact Option.noConfusion h
  | cons c cs ih =>
    cases cs with
    | nil =>
      simp only [List.getLast?_singleton, Option.some.injEq] at h
      subst h
      simp
    | cons d r =>
      rw [List.getLast?_cons_cons] at h
      simp [ih h]

/-- Rule 3 occurrence anywhere in the text, with `prev` the character before
the text. -/
def Occ3C (prev : Option Char) (T tok : List Char) : Prop :=
  ∃ pre rest, T = pre ++ rest ∧ Occ3At (lastOpt prev pre) rest tok

theorem occ3At_nonempty {prev : Option Char} {tok : List Char}
    (h : Occ3At prev [] tok) : False := by
  obtain ⟨a, ws, u, suf, hs, _, _, hlen, _⟩ := h
  have : a = [] := by
    cases a with
    | nil => rfl
    | cons x t => simp at hs
  subst this
  simp at hlen

theorem m3_tok_getLast_word {prev : Option Char} {s tok rest : List Char}
    {lc : Char} (h : m3 prev s = some (tok, rest, lc)) :
    isWordChar lc = true := by
  obtain ⟨⟨a, ws, u, suf, _, htok, _, _, _, _, hu, _, _⟩, _, hlast⟩ := m3_eq_some h
  subst htok
  rw [List.append_assoc, List.getLast?_append_of_ne_nil _ (by
    simp [unitTok_ne_nil hu]), List.getLast?_append_of_ne_nil _ (unitTok_ne_nil hu)]
    at hlast
  exact (unitTok_chars hu lc (getLast?_some_mem hlast)).2.1

theorem isDigit_of_nz {c : Char} (h1 : '1' ≤ c) (h2 : c ≤ '9') :
    c.isDigit = true := by
  rw [Char.le_def] at h1 h2
  have h1' : ('1'.val).toNat ≤ (c.val).toNat := h1
  have h2' : (c.val).toNat ≤ ('9'.val).toNat := h2
  have e1 : ('1'.val).toNat = 49 := rfl
  have e2 : ('9'.val).toNat = 57 := rfl
  unfold Char.isDigit
  simp only [Bool.and_eq_true, decide_eq_true_eq]
  constructor
  · show ((48 : UInt32)).toNat ≤ (c.val).toNat
    have e3 : ((48 : UInt32)).toNat = 48 := rfl
    omega
  · show (c.val).toNat ≤ ((57 : UInt32)).toNat
    have e4 : ((57 : UInt32)).toNat = 57 := rfl
    omega

theorem occ3C_step_match {prev : Option Char} {s tok0 rest0 tok : List Char}
    {lc0 : Char} (hm : m3 prev s = some (tok0, rest0, lc0))
    (ho : Occ3C prev s tok) :
    tok = tok0 ∨ Occ3C (some lc0) rest0 tok := by
  obtain ⟨hocc0, hs, hlast⟩ := m3_eq_some hm
  obtain ⟨pre, rest', hpre, hOccAt⟩ := ho
  rw [hs] at hpre
  rcases List.append_eq_append_iff.mp hpre.symm with ⟨m, hm1, hm2⟩ | ⟨m, hm1, hm2⟩
  · -- tok0 = pre ++ m, rest' = m ++ rest0 (occurrence starts inside or at tok0)
    cases pre with
    | nil =>
      -- occurrence at the matched position: determinism forces equality
      simp only [List.nil_append] at hm1 hm2
      obtain ⟨a, ws, u, suf, hr, htok, hadig, hlen, hnz, hws, hu, hbnd, hafter⟩ := hOccAt
      obtain ⟨lc', hm'⟩ := m3_complete hadig hlen hnz hws hu
        (by simpa [lastOpt] using hbnd) hafter
      rw [← hr] at hm'
      rw [hm2, ← hm1] at hm'
      rw [hs] at hm
      rw [hm] at hm'
      injection hm' with h1
      injection h1 with h2 _
      exact Or.inl (htok.trans h2.symm)
    | cons p0 pr =>
      -- pre is nonempty
      obtain ⟨a, ws, u, suf, hr, htok, hadig, hlen, hnz, hws, hu, hbnd, hafter⟩ := hOccAt
      obtain ⟨dc, dcs, ha_eq, hdc1, hdc2⟩ := hnz
      obtain ⟨p, hp⟩ := Option.isSome_iff_exists.mp
        (List.getLast?_isSome.mpr (by simp : (p0 :: pr) ≠ []))
      have hpw : isWordChar p = false := by
        have hl : lastOpt prev (p0 :: pr) = some p := by simp [lastOpt, hp]
        rw [hl] at hbnd
        simpa [isWOpt] using hbnd
      cases m with
      | nil =>
        -- pre = tok0: the character before the occurrence is the unit's last
        -- letter, a word character; contradiction with the boundary
        rw [List.append_nil] at hm1
        rw [hm1, hp] at hlast
        injection hlast with hlast
        rw [hlast] at hpw
        exact absurd (m3_tok_getLast_word hm) (by simp [hpw])
      | cons e m' =>
        -- the occurrence starts strictly inside the matched token: impossible
        obtain ⟨a0, ws0, u0, suf0, hs0, htok0, hadig0, _, _, hws0, hu0, _, _⟩ := hocc0
        have hm1' : (p0 :: pr) ++ (e :: m') = a0 ++ (ws0 ++ u0) := by
          rw [← hm1, htok0, List.append_assoc]
        have hedig : e.isDigit = true := by
          have he : rest'.head? = some e := by
            rw [hm2]
            rfl
          rw [hr, ha_eq] at he
          simp only [List.cons_append, List.head?_cons, Option.some.injEq] at he
          rw [← he]
          exact isDigit_of_nz hdc1 hdc2
        rcases List.append_eq_append_iff.mp hm1' with ⟨k, hk1, hk2⟩ | ⟨k, hk1, hk2⟩
        · -- pre is a prefix of the digit run: its last char is a digit, but it
          -- must be a non-word character
          have hpmem : p ∈ a0 := by
            rw [hk1]
            exact List.mem_append_left _ (getLast?_some_mem hp)
          exact absurd (digit_is_word (hadig0 p hpmem)) (by simp [hpw])
        · -- e :: m' is a suffix of ws0 ++ u0, but e is a digit
          rcases List.append_eq_append_iff.mp hk2.symm with ⟨j, hj1, hj2⟩ | ⟨j, hj1, hj2⟩
          · -- e :: m' = j ++ u0 with ws0 = k ++ j
            cases j with
            | nil =>
              simp only [List.nil_append] at hj2
              have : u0.head? = some e := by
                rw [← hj2]
                rfl
              exact absurd hedig (by simp [(unitTok_head hu0 e this).1])
            | cons j0 jr =>
              injection hj2 with hj2a _
              have : j0 ∈ ws0 := by
                rw [hj1]
                exact List.mem_append_right _ (by simp)
              have hwsj := hws0 j0 this
              rw [← hj2a] at hwsj
              exact absurd hedig (by simp [isPyWS_not_digit hwsj])
          · -- u0 = j ++ (e :: m')
            have : e ∈ u0 := by
              rw [hj2]
              simp
            exact absurd hedig (by simp [(unitTok_chars hu0 e this).1])
  · -- pre = tok0 ++ m, rest0 = m ++ rest'
    cases m with
    | nil =>
      rw [List.append_nil] at hm1
      obtain ⟨a, ws, u, suf, hr, htok, hadig, hlen, hnz, hws, hu, hbnd, hafter⟩ := hOccAt
      rw [hm1] at hbnd
      have hl : lastOpt prev tok0 = some lc0 := by simp [lastOpt, hlast]
      rw [hl] at hbnd
      simp only [isWOpt] at hbnd
      exact absurd (m3_tok_getLast_word hm) (by simp [hbnd])
    | cons e m' =>
      right
      refine ⟨e :: m', rest', hm2, ?_⟩
      rw [hm1, lastOpt_chain hlast] at hOccAt
      exact hOccAt

theorem occ3C_step_none {prev : Option Char} {c : Char} {cs tok : List Char}
    (hm : m3 prev (c :: cs) = none) (ho : Occ3C prev (c :: cs) tok) :
    Occ3C (some c) cs tok := by
  obtain ⟨pre, rest', hpre, hOccAt⟩ := ho
  cases pre with
  | nil =>
    simp only [List.nil_append] at hpre
    subst hpre
    obtain ⟨a, ws, u, suf, hr, htok, hadig, hlen, hnz, hws, hu, hbnd, hafter⟩ := hOccAt
    obtain ⟨lc', hm'⟩ := m3_complete hadig hlen hnz hws hu
      (by simpa [lastOpt] using hbnd) hafter
    rw [← hr] at hm'
    rw [hm] at hm'
    exact Option.noConfusion hm'
  | cons p0 pr =>
    injection hpre with h1 h2
    subst h1
    refine ⟨pr, rest', h2, ?_⟩
    rw [lastOpt_cons] at hOccAt
    exact hOccAt

theorem findall3_complete :
    ∀ fuel (prev : Option Char) (s tok : List Char), s.length ≤ fuel →
      Occ3C prev s tok → tok ∈ findallAux m3 fuel prev s := by
  intro fuel
  induction fuel with
  | zero =>
    intro prev s tok hlen ho
    have : s = [] := List.length_eq_zero.mp (Nat.le_zero.mp hlen)
    subst this
    obtain ⟨pre, rest', hpre, hOccAt⟩ := ho
    have hrest : rest' = [] := by
      cases rest' with
      | nil => rfl
      | cons x t =>
        exact absurd hpre.symm (by simp)
    subst hrest
    exact absurd hOccAt occ3At_nonempty
  | succ n ih =>
    intro prev s tok hlen ho
    cases s with
    | nil =>
      obtain ⟨pre, rest', hpre, hOccAt⟩ := ho
      have hrest : rest' = [] := by
        cases rest' with
        | nil => rfl
        | cons x t => exact absurd hpre.symm (by simp)
      subst hrest
      exact absurd hOccAt occ3At_nonempty
    | cons c cs =>
      cases hm : m3 prev (c :: cs) with
      | some res =>
        obtain ⟨tok0, rest0, lc0⟩ := res
        simp only [findallAux, hm]
        rcases occ3C_step_match hm ho with rfl | ho'
        · simp
        · right
          obtain ⟨⟨a, ws, u, suf, _, htok0, _, hlen2, _⟩, hs2, _⟩ := m3_eq_some hm
          have h1 : (c :: cs).length = tok0.length + rest0.length := by
            rw [hs2, List.length_append]
          have h3 : 2 ≤ tok0.length := by
            rw [htok0]
            simp only [List.length_append]
            omega
          simp only [List.length_cons] at hlen h1
          exact ih (some lc0) rest0 tok (by omega) ho'
      | none =>
        simp only [findallAux, hm]
        have hlen' : cs.length ≤ n := by
          simp only [List.length_cons] at hlen
          omega
        exact ih (some c) cs tok hlen' (occ3C_step_none hm ho)

theorem m3_consumes {prev : Option Char} {s tok rest : List Char} {lc : Char}
    (h : m3 prev s = some (tok, rest, lc)) :
    ∃ cons, s = cons ++ rest ∧ cons.getLast? = some lc := by
  obtain ⟨_, hs, hlast⟩ := m3_eq_some h
  exact ⟨tok, hs, hlast⟩

/-- Exact characterization of `re.findall` with pattern 3. -/
theorem findall3_iff {T tok : List Char} :
    tok ∈ pyFindall m3 T ↔ Occ3C none T tok := by
  constructor
  · intro h
    obtain ⟨pre, rest, r2, lc, hsplit, hm⟩ := findallAux_sound
      (fun _ _ _ _ _ h => m3_consumes h) (T.length + 1) none T tok h
    obtain ⟨hocc, _, _⟩ := m3_eq_some hm
    exact ⟨pre, rest, hsplit, hocc⟩
  · intro h
    exact findall3_complete (T.length + 1) none T tok (by omega) h

theorem noDbl_append_left {a b : List Char} (h : noDbl (a ++ b) = true) :
    noDbl a = true := by
  induction a with
  | nil => rfl
  | cons x a' ih =>
    cases a' with
    | nil => rfl
    | cons y a'' =>
      simp only [List.cons_append] at h
      have h' : noDbl (x :: y :: (a'' ++ b)) = true := h
      simp only [noDbl, Bool.and_eq_true] at h' ⊢
      exact ⟨h'.1, ih (by simpa using h'.2)⟩

theorem upChar_ws (c : Char) : isPyWS (upChar c) = isPyWS c := by
  unfold upChar
  split <;> rfl

theorem noDbl_pyUpper (s : List Char) : noDbl (pyUpper s) = noDbl s := by
  unfold pyUpper
  induction s with
  | nil => rfl
  | cons c cs ih =>
    cases cs with
    | nil => rfl
    | cons d r =>
      simp only [List.map_cons] at ih ⊢
      simp only [noDbl, upChar_ws, ih]

/-- The claim's notion of a rule-3 capture site: a whole-word occurrence of an
integer of two or more digits, an optional space, and a unit. -/
def Rule3Occ (T tok : List Char) : Prop :=
  ∃ pre a ws u suf, T = pre ++ a ++ ws ++ u ++ suf ∧ tok = a ++ ws ++ u ∧
    AllDigits a ∧ 2 ≤ a.length ∧ (ws = [] ∨ ws = [' ']) ∧ UnitTok u ∧
    (pre = [] ∨ ∃ c, pre.getLast? = some c ∧ isWordChar c = false) ∧
    (suf = [] ∨ ∃ c, suf.head? = some c ∧ isWordChar c = false)

/-- The amended capture site: additionally the integer's first digit is
nonzero (the pattern's `[1-9]` — the claim as stated omits this). -/
def Rule3OccNZ (T tok : List Char) : Prop :=
  Rule3Occ T tok ∧ (∃ c, tok.head? = some c ∧ '1' ≤ c ∧ c ≤ '9')

theorem occ3C_iff_rule3OccNZ {T tok : List Char}
    (hws1 : ∀ c ∈ T, isPyWS c = true → c = ' ')
    (hnd : noDbl T = true) :
    Occ3C none T tok ↔ Rule3OccNZ T tok := by
  constructor
  · rintro ⟨pre, rest, hT, a, ws, u, suf, hr, htok, hadig, hlen, hnz, hws, hu,
      hbnd, hafter⟩
    obtain ⟨dc, dcs, ha_eq, hdc1, hdc2⟩ := hnz
    have hT' : T = pre ++ a ++ ws ++ u ++ suf := by
      rw [hT, hr]
      simp [List.append_assoc]
    have hwssmall : ws = [] ∨ ws = [' '] := by
      cases ws with
      | nil => exact Or.inl rfl
      | cons w1 wr =>
        cases wr with
        | nil =>
          right
          have hmem : w1 ∈ T := by
            rw [hT']
            simp
          rw [hws1 w1 hmem (hws w1 (by simp))]
        | cons w2 wr' =>
          exfalso
          have e1 : T = (pre ++ a) ++ ((w1 :: w2 :: wr') ++ (u ++ suf)) := by
            rw [hT']
            simp [List.append_assoc]
          have h1 := noDbl_append_right (e1 ▸ hnd)
          have hseg := noDbl_append_left h1
          simp only [noDbl, Bool.and_eq_true] at hseg
          have h2 := hseg.1
          rw [hws w1 (by simp), hws w2 (by simp)] at h2
          simp at h2
    refine ⟨⟨pre, a, ws, u, suf, hT', htok, hadig, hlen, hwssmall, hu, ?_, ?_⟩,
      ⟨dc, ?_, hdc1, hdc2⟩⟩
    · cases pre with
      | nil => exact Or.inl rfl
      | cons p0 pr =>
        right
        obtain ⟨p, hp⟩ := Option.isSome_iff_exists.mp
          (List.getLast?_isSome.mpr (by simp : (p0 :: pr) ≠ []))
        refine ⟨p, hp, ?_⟩
        have hl : lastOpt none (p0 :: pr) = some p := by simp [lastOpt, hp]
        rw [hl] at hbnd
        simpa [isWOpt] using hbnd
    · cases suf with
      | nil => exact Or.inl rfl
      | cons c0 t =>
        right
        refine ⟨c0, rfl, ?_⟩
        simpa [noWordAfter] using hafter
    · rw [htok, ha_eq]
      rfl
  · rintro ⟨⟨pre, a, ws, u, suf, hT', htok, hadig, hlen, hwss, hu, hbl, hbr⟩,
      ⟨c0, hhead, hc1, hc2⟩⟩
    refine ⟨pre, a ++ ws ++ u ++ suf, by rw [hT']; simp [List.append_assoc],
      a, ws, u, suf, rfl, htok, hadig, hlen, ?_, ?_, hu, ?_, ?_⟩
    · -- the first digit is nonzero
      cases a with
      | nil => exact absurd hlen (by simp)
      | cons a0 arest =>
        refine ⟨a0, arest, rfl, ?_, ?_⟩
        · rw [htok] at hhead
          simp only [List.cons_append, List.head?_cons, Option.some.injEq] at hhead
          rw [hhead]
          exact hc1
        · rw [htok] at hhead
          simp only [List.cons_append, List.head?_cons, Option.some.injEq] at hhead
          rw [hhead]
          exact hc2
    · rcases hwss with rfl | rfl
      · intro c hc
        simp at hc
      · intro c hc
        simp only [List.mem_singleton] at hc
        subst hc
        decide
    · rcases hbl with rfl | ⟨c, hgl, hcw⟩
      · rfl
      · have hl : lastOpt none pre = some c := by simp [lastOpt, hgl]
        rw [hl]
        simpa [isWOpt] using hcw
    · rcases hbr with rfl | ⟨c, hh, hw⟩
      · rfl
      · cases suf with
        | nil => exact Option.noConfusion hh
        | cons d t =>
          injection hh with hh
          subst hh
          simpa [noWordAfter] using hw

theorem getLast?_concat_unit {x u : List Char} {lc : Char} (hu : UnitTok u)
    (h : u.getLast? = some lc) : (x ++ u).getLast? = some lc := by
  rw [List.getLast?_append_of_ne_nil _ (unitTok_ne_nil hu)]
  exact h

theorem getLast?_cons_ne {w : Char} {X : List Char} (hX : X ≠ []) :
    (w :: X).getLast? = X.getLast? := by
  have e : w :: X = [w] ++ X := rfl
  rw [e, List.getLast?_append_of_ne_nil _ hX]

theorem ne_nil_of_not_isEmpty {a : List Char} (h : ¬(a.isEmpty = true)) :
    a ≠ [] := by
  cases a with
  | nil => exact absurd rfl h
  | cons x t => simp

/-- Soundness of the pattern-1 matcher. -/
theorem m1_eq_some {prev : Option Char} {s tok rest : List Char} {lc : Char}
    (h : m1 prev s = some (tok, rest, lc)) :
    ∃ a sep b ws u, s = tok ++ rest ∧ tok = a ++ sep :: b ++ ws ++ u ∧
      AllDigits a ∧ a ≠ [] ∧ (sep = '.' ∨ sep = ',') ∧ AllDigits b ∧ b ≠ [] ∧
      AllWS ws ∧ UnitTok u ∧ tok.getLast? = some lc ∧
      noWordBefore prev = true ∧ noWordAfter rest = true := by
  unfold m1 at h
  by_cases hb : noWordBefore prev = true
  swap
  · rw [if_neg hb] at h
    exact Option.noConfusion h
  rw [if_pos hb] at h
  rcases hsp : s.span Char.isDigit with ⟨a, r1⟩
  rw [hsp] at h
  dsimp only at h
  obtain ⟨hs1, hadig, _⟩ := span_spec hsp
  by_cases hae : a.isEmpty = true
  · rw [if_pos hae] at h
    exact Option.noConfusion h
  rw [if_neg hae] at h
  match r1, hs1, h with
  | sep :: r2, hs1, h =>
    dsimp only at h
    by_cases hsep : (sep == '.' || sep == ',') = true
    swap
    · rw [if_neg hsep] at h
      exact Option.noConfusion h
    rw [if_pos hsep] at h
    rcases hsp2 : r2.span Char.isDigit with ⟨bb, r3⟩
    rw [hsp2] at h
    dsimp only at h
    obtain ⟨hs2, hbdig, _⟩ := span_spec hsp2
    by_cases hbe : bb.isEmpty = true
    · rw [if_pos hbe] at h
      exact Option.noConfusion h
    rw [if_neg hbe] at h
    rcases hsp3 : r3.span isPyWS with ⟨ws, r4⟩
    rw [hsp3] at h
    dsimp only at h
    obtain ⟨hs3, hws, _⟩ := span_spec hsp3
    cases hmu : matchUnit r4 with
    | none =>
      rw [hmu] at h
      exact Option.noConfusion h
    | some res =>
      obtain ⟨u, lc0, r5⟩ := res
      rw [hmu] at h
      dsimp only at h
      obtain ⟨hs4, hu, hulast, _⟩ := matchUnit_eq_some hmu
      by_cases haf : noWordAfter r5 = true
      swap
      · rw [if_neg haf] at h
        exact Option.noConfusion h
      rw [if_pos haf] at h
      injection h with h1
      injection h1 with htok h2
      injection h2 with hrest hlc
      subst htok
      subst hrest
      subst hlc
      refine ⟨a, sep, bb, ws, u, ?_, rfl, hadig, ne_nil_of_not_isEmpty hae, ?_,
        hbdig, ne_nil_of_not_isEmpty hbe, hws, hu, ?_, hb, haf⟩
      · rw [hs1, hs2, hs3, hs4]
        simp [List.append_assoc]
      · simpa using hsep
      · have e : a ++ sep :: bb ++ ws ++ u = (a ++ sep :: bb ++ ws) ++ u := by
          simp [List.append_assoc]
        rw [e]
        exact getLast?_concat_unit hu hulast

theorem optSep_spec {r sep r4 : List Char} (h : optSep r = (sep, r4)) :
    r = sep ++ r4 ∧
      (sep = [] ∨ ∃ c, sep = [c] ∧ (c = '.' ∨ c = ',')) := by
  unfold optSep at h
  match r, h with
  | [], h =>
    injection h with h1 h2
    subst h1
    subst h2
    exact ⟨rfl, Or.inl rfl⟩
  | c :: rr, h =>
    dsimp only at h
    by_cases hc : (c == '.' || c == ',') = true
    · rw [if_pos hc] at h
      injection h with h1 h2
      subst h1
      subst h2
      exact ⟨rfl, Or.inr ⟨c, rfl, by simpa using hc⟩⟩
    · rw [if_neg hc] at h
      injection h with h1 h2
      subst h1
      subst h2
      exact ⟨rfl, Or.inl rfl⟩

/-- Soundness of the pattern-2 matcher. -/
theorem m2_eq_some {prev : Option Char} {s tok rest : List Char} {lc : Char}
    (h : m2 prev s = some (tok, rest, lc)) :
    ∃ a b sep d ws u, s = tok ++ rest ∧
      tok = a ++ 'X' :: b ++ sep ++ d ++ ws ++ u ∧
      AllDigits a ∧ a ≠ [] ∧ AllDigits b ∧ b ≠ [] ∧
      (sep = [] ∨ ∃ c, sep = [c] ∧ (c = '.' ∨ c = ',')) ∧ AllDigits d ∧
      AllWS ws ∧ UnitTok u ∧ tok.getLast? = some lc ∧
      noWordBefore prev = true ∧ noWordAfter rest = true := by
  unfold m2 at h
  by_cases hb : noWordBefore prev = true
  swap
  · rw [if_neg hb] at h
    exact Option.noConfusion h
  rw [if_pos hb] at h
  rcases hsp : s.span Char.isDigit with ⟨a, r1⟩
  rw [hsp] at h
  dsimp only at h
  obtain ⟨hs1, hadig, _⟩ := span_spec hsp
  by_cases hae : a.isEmpty = true
  · rw [if_pos hae] at h
    exact Option.noConfusion h
  rw [if_neg hae] at h
  split at h
  rotate_left
  · exact Option.noConfusion h
  rename_i r2 hd2
  · rcases hsp2 : r2.span Char.isDigit with ⟨bb, r3⟩
    rw [hsp2] at h
    dsimp only at h
    obtain ⟨hs2, hbdig, _⟩ := span_spec hsp2
    by_cases hbe : bb.isEmpty = true
    · rw [if_pos hbe] at h
      exact Option.noConfusion h
    rw [if_neg hbe] at h
    rcases hos : optSep r3 with ⟨sep, r4⟩
    rw [hos] at h
    dsimp only at h
    obtain ⟨hs3, hsepsh⟩ := optSep_spec hos
    rcases hsp3 : r4.span Char.isDigit with ⟨d, r5⟩
    rw [hsp3] at h
    dsimp only at h
    obtain ⟨hs4, hddig, _⟩ := span_spec hsp3
    rcases hsp4 : r5.span isPyWS with ⟨ws, r6⟩
    rw [hsp4] at h
    dsimp only at h
    obtain ⟨hs5, hws, _⟩ := span_spec hsp4
    cases hmu : matchUnit r6 with
    | none =>
      rw [hmu] at h
      exact Option.noConfusion h
    | some res =>
      obtain ⟨u, lc0, r7⟩ := res
      rw [hmu] at h
      dsimp only at h
      obtain ⟨hs6, hu, hulast, _⟩ := matchUnit_eq_some hmu
      by_cases haf : noWordAfter r7 = true
      swap
      · rw [if_neg haf] at h
        exact Option.noConfusion h
      rw [if_pos haf] at h
      injection h with h1
      injection h1 with htok h2
      injection h2 with hrest hlc
      subst htok
      subst hrest
      subst hlc
      refine ⟨a, bb, sep, d, ws, u, ?_, rfl, hadig, ne_nil_of_not_isEmpty hae,
        hbdig, ne_nil_of_not_isEmpty hbe, hsepsh, hddig, hws, hu, ?_, hb, haf⟩
      · rw [hs1, hs2, hs3, hs4, hs5, hs6]
        simp [List.append_assoc]
      · have e : a ++ 'X' :: bb ++ sep ++ d ++ ws ++ u =
            (a ++ 'X' :: bb ++ sep ++ d ++ ws) ++ u := by
          simp [List.append_assoc]
        rw [e]
        exact getLast?_concat_unit hu hulast

/-- Soundness of the digit/unit core of pattern 4. -/
theorem m4try_eq_some {s tok rest : List Char} {lc : Char}
    (h : m4try s = some (tok, rest, lc)) :
    ∃ d ws u, s = d :: (ws ++ u ++ rest) ∧ tok = d :: u ∧
      ('1' ≤ d ∧ d ≤ '9') ∧ AllWS ws ∧ UnitTok u ∧ u.getLast? = some lc ∧
      noWordAfter rest = true := by
  unfold m4try at h
  match s, h with
  | d :: r1, h =>
    dsimp only at h
    by_cases hd : ('1' ≤ d && d ≤ '9') = true
    swap
    · rw [if_neg hd] at h
      exact Option.noConfusion h
    rw [if_pos hd] at h
    rcases hsp : r1.span isPyWS with ⟨ws, r2⟩
    rw [hsp] at h
    dsimp only at h
    obtain ⟨hs1, hws, _⟩ := span_spec hsp
    cases hmu : matchUnit r2 with
    | none =>
      rw [hmu] at h
      exact Option.noConfusion h
    | some res =>
      obtain ⟨u, lc0, r3⟩ := res
      rw [hmu] at h
      dsimp only at h
      obtain ⟨hs2, hu, hulast, _⟩ := matchUnit_eq_some hmu
      by_cases haf : noWordAfter r3 = true
      swap
      · rw [if_neg haf] at h
        exact Option.noConfusion h
      rw [if_pos haf] at h
      injection h with h1
      injection h1 with htok h2
      injection h2 with hrest hlc
      subst htok
      subst hrest
      subst hlc
      refine ⟨d, ws, u, ?_, rfl, by simpa using hd, hws, hu, hulast, haf⟩
      rw [hs1, hs2]
      simp [List.append_assoc]

/-- Soundness of the pattern-4 matcher: the guard `(?:^|\s)` holds, and the
captured token drops the whitespace between the digit and the unit. -/
theorem m4_eq_some {prev : Option Char} {s tok rest : List Char} {lc : Char}
    (h : m4 prev s = some (tok, rest, lc)) :
    ∃ g d ws u, s = (g ++ d :: ws ++ u) ++ rest ∧ tok = d :: u ∧
      ('1' ≤ d ∧ d ≤ '9') ∧ AllWS ws ∧ UnitTok u ∧
      (g ++ d :: ws ++ u).getLast? = some lc ∧
      ((g = [] ∧ prev = none) ∨ (∃ w, g = [w] ∧ isPyWS w = true)) ∧
      noWordAfter rest = true := by
  have core : ∀ (s' : List Char), m4try s' = some (tok, rest, lc) →
      ∃ d ws u, s' = (d :: ws ++ u) ++ rest ∧ tok = d :: u ∧
        ('1' ≤ d ∧ d ≤ '9') ∧ AllWS ws ∧ UnitTok u ∧
        (d :: ws ++ u).getLast? = some lc ∧ noWordAfter rest = true := by
    intro s' h'
    obtain ⟨d, ws, u, hs', htok, hd, hws, hu, hulast, haf⟩ := m4try_eq_some h'
    refine ⟨d, ws, u, by rw [hs']; simp [List.append_assoc], htok, hd, hws, hu,
      ?_, haf⟩
    have e : d :: ws ++ u = (d :: ws) ++ u := by simp
    rw [e]
    exact getLast?_concat_unit hu hulast
  unfold m4 at h
  match prev, h with
  | none, h =>
    dsimp only at h
    cases ht : m4try s with
    | some res =>
      rw [ht] at h
      dsimp only at h
      injection h with h1
      subst h1
      obtain ⟨d, ws, u, hs', htok, hd, hws, hu, hulast, haf⟩ := core s ht
      exact ⟨[], d, ws, u, by simpa using hs', htok, hd, hws, hu,
        by simpa using hulast, Or.inl ⟨rfl, rfl⟩, haf⟩
    | none =>
      rw [ht] at h
      dsimp only at h
      match s, h with
      | w :: r, h =>
        dsimp only at h
        by_cases hw : isPyWS w = true
        swap
        · rw [if_neg hw] at h
          exact Option.noConfusion h
        rw [if_pos hw] at h
        obtain ⟨d, ws, u, hs', htok, hd, hws, hu, hulast, haf⟩ := core r h
        refine ⟨[w], d, ws, u, ?_, htok, hd, hws, hu, ?_, Or.inr ⟨w, rfl, hw⟩, haf⟩
        · rw [hs']
          simp [List.append_assoc]
        · have e : [w] ++ d :: ws ++ u = w :: (d :: ws ++ u) := rfl
          rw [e, getLast?_cons_ne (by simp)]
          exact hulast
  | some p, h =>
    match s, h with
    | w :: r, h =>
      dsimp only at h
      by_cases hw : isPyWS w = true
      swap
      · rw [if_neg hw] at h
        exact Option.noConfusion h
      rw [if_pos hw] at h
      obtain ⟨d, ws, u, hs', htok, hd, hws, hu, hulast, haf⟩ := core r h
      refine ⟨[w], d, ws, u, ?_, htok, hd, hws, hu, ?_, Or.inr ⟨w, rfl, hw⟩, haf⟩
      · rw [hs']
        simp [List.append_assoc]
      · have e : ([w] ++ d :: ws ++ u) = w :: (d :: ws ++ u) := rfl
        rw [e, getLast?_cons_ne (by simp)]
        exact hulast

/-- Soundness of the pattern-5 matcher. -/
theorem m5_eq_some {prev : Option Char} {s tok rest : List Char} {lc : Char}
    (h : m5 prev s = some (tok, rest, lc)) :
    ∃ a b ws u, s = tok ++ rest ∧ tok = a ++ '/' :: b ++ ws ++ u ∧
      AllDigits a ∧ a ≠ [] ∧ AllDigits b ∧ b ≠ [] ∧
      AllWS ws ∧ UnitTok u ∧ tok.getLast? = some lc ∧
      noWordBefore prev = true ∧ noWordAfter rest = true := by
  unfold m5 at h
  by_cases hb : noWordBefore prev = true
  swap
  · rw [if_neg hb] at h
    exact Option.noConfusion h
  rw [if_pos hb] at h
  rcases hsp : s.span Char.isDigit with ⟨a, r1⟩
  rw [hsp] at h
  dsimp only at h
  obtain ⟨hs1, hadig, _⟩ := span_spec hsp
  by_cases hae : a.isEmpty = true
  · rw [if_pos hae] at h
    exact Option.noConfusion h
  rw [if_neg hae] at h
  split at h
  rotate_left
  · exact Option.noConfusion h
  rename_i r2 hd2
  · rcases hsp2 : r2.span Char.isDigit with ⟨bb, r3⟩
    rw [hsp2] at h
    dsimp only at h
    obtain ⟨hs2, hbdig, _⟩ := span_spec hsp2
    by_cases hbe : bb.isEmpty = true
    · rw [if_pos hbe] at h
      exact Option.noConfusion h
    rw [if_neg hbe] at h
    rcases hsp3 : r3.span isPyWS with ⟨ws, r4⟩
    rw [hsp3] at h
    dsimp only at h
    obtain ⟨hs3, hws, _⟩ := span_spec hsp3
    cases hmu : matchUnit r4 with
    | none =>
      rw [hmu] at h
      exact Option.noConfusion h
    | some res =>
      obtain ⟨u, lc0, r5⟩ := res
      rw [hmu] at h
      dsimp only at h
      obtain ⟨hs4, hu, hulast, _⟩ := matchUnit_eq_some hmu
      by_cases haf : noWordAfter r5 = true
      swap
      · rw [if_neg haf] at h
        exact Option.noConfusion h
      rw [if_pos haf] at h
      injection h with h1
      injection h1 with htok h2
      injection h2 with hrest hlc
      subst htok
      subst hrest
      subst hlc
      refine ⟨a, bb, ws, u, ?_, rfl, hadig, ne_nil_of_not_isEmpty hae,
        hbdig, ne_nil_of_not_isEmpty hbe, hws, hu, ?_, hb, haf⟩
      · rw [hs1, hs2, hs3, hs4]
        simp [List.append_assoc]
      · have e : a ++ '/' :: bb ++ ws ++ u = (a ++ '/' :: bb ++ ws) ++ u := by
          simp [List.append_assoc]
        rw [e]
        exact getLast?_concat_unit hu hulast

/-- Soundness of the pattern-6 matcher. -/
theorem m6_eq_some {prev : Option Char} {s tok rest : List Char} {lc : Char}
    (h : m6 prev s = some (tok, rest, lc)) :
    ∃ a b, s = tok ++ rest ∧ tok = a ++ '/' :: b ∧
      AllDigits a ∧ a ≠ [] ∧ AllDigits b ∧ b ≠ [] ∧
      tok.getLast? = some lc ∧
      noWordBefore prev = true ∧ noWordAfter rest = true := by
  unfold m6 at h
  by_cases hb : noWordBefore prev = true
  swap
  · rw [if_neg hb] at h
    exact Option.noConfusion h
  rw [if_pos hb] at h
  rcases hsp : s.span Char.isDigit with ⟨a, r1⟩
  rw [hsp] at h
  dsimp only at h
  obtain ⟨hs1, hadig, _⟩ := span_spec hsp
  by_cases hae : a.isEmpty = true
  · rw [if_pos hae] at h
    exact Option.noConfusion h
  rw [if_neg hae] at h
  split at h
  rotate_left
  · exact Option.noConfusion h
  rename_i r2 hd2
  · rcases hsp2 : r2.span Char.isDigit with ⟨bb, r3⟩
    rw [hsp2] at h
    dsimp only at h
    obtain ⟨hs2, hbdig, _⟩ := span_spec hsp2
    by_cases hbe : bb.isEmpty = true
    · rw [if_pos hbe] at h
      exact Option.noConfusion h
    rw [if_neg hbe] at h
    by_cases haf : noWordAfter r3 = true
    swap
    · rw [if_neg haf] at h
      exact Option.noConfusion h
    rw [if_pos haf] at h
    injection h with h1
    injection h1 with htok h2
    injection h2 with hrest hlc
    subst htok
    subst hrest
    refine ⟨a, bb, ?_, rfl, hadig, ne_nil_of_not_isEmpty hae,
      hbdig, ne_nil_of_not_isEmpty hbe, ?_, hb, haf⟩
    · rw [hs1, hs2]
      simp [List.append_assoc]
    · have e : a ++ '/' :: bb = (a ++ ['/']) ++ bb := by
        simp [List.append_assoc]
      rw [e, List.getLast?_append_of_ne_nil _ (ne_nil_of_not_isEmpty hbe)]
      rw [← hlc]
      cases hq : bb.getLast? with
      | none =>
        exact absurd hq (by
          simpa using List.getLast?_isSome.mpr (ne_nil_of_not_isEmpty hbe))
      | some q =>
        rw [List.getLastD_eq_getLast?, hq]
        rfl

theorem m1_consumes {prev : Option Char} {s tok rest : List Char} {lc : Char}
    (h : m1 prev s = some (tok, rest, lc)) :
    ∃ cons, s = cons ++ rest ∧ cons.getLast? = some lc := by
  obtain ⟨a, sep, b, ws, u, hs, _, _, _, _, _, _, _, _, hlast, _⟩ := m1_eq_some h
  exact ⟨tok, hs, hlast⟩

theorem m2_consumes {prev : Option Char} {s tok rest : List Char} {lc : Char}
    (h : m2 prev s = some (tok, rest, lc)) :
    ∃ cons, s = cons ++ rest ∧ cons.getLast? = some lc := by
  obtain ⟨a, b, sep, d, ws, u, hs, _, _, _, _, _, _, _, _, _, hlast, _⟩ :=
    m2_eq_some h
  exact ⟨tok, hs, hlast⟩

theorem m4_consumes {prev : Option Char} {s tok rest : List Char} {lc : Char}
    (h : m4 prev s = some (tok, rest, lc)) :
    ∃ cons, s = cons ++ rest ∧ cons.getLast? = some lc := by
  obtain ⟨g, d, ws, u, hs, _, _, _, _, hlast, _⟩ := m4_eq_some h
  exact ⟨g ++ d :: ws ++ u, hs, hlast⟩

theorem m5_consumes {prev : Option Char} {s tok rest : List Char} {lc : Char}
    (h : m5 prev s = some (tok, rest, lc)) :
    ∃ cons, s = cons ++ rest ∧ cons.getLast? = some lc := by
  obtain ⟨a, b, ws, u, hs, _, _, _, _, _, _, _, hlast, _⟩ := m5_eq_some h
  exact ⟨tok, hs, hlast⟩

theorem m6_consumes {prev : Option Char} {s tok rest : List Char} {lc : Char}
    (h : m6 prev s = some (tok, rest, lc)) :
    ∃ cons, s = cons ++ rest ∧ cons.getLast? = some lc := by
  obtain ⟨a, b, hs, _, _, _, _, _, hlast, _⟩ := m6_eq_some h
  exact ⟨tok, hs, hlast⟩

theorem upChar_digit (c : Char) : (upChar c).isDigit = c.isDigit := by
  unfold upChar
  split <;> rfl

theorem findall_empty_of_no_digit {T : List Char}
    (hnd : ∀ c ∈ T, c.isDigit = false) :
    pyFindall m1 T = [] ∧ pyFindall m2 T = [] ∧ pyFindall m3 T = [] ∧
      pyFindall m4 T = [] ∧ pyFindall m5 T = [] ∧ pyFindall m6 T = [] := by
  refine ⟨?_, ?_, ?_, ?_, ?_, ?_⟩ <;>
    (rw [List.eq_nil_iff_forall_not_mem]
     intro tok h)
  · obtain ⟨pre, rest, r2, lc, hsplit, hm⟩ := findallAux_sound
      (fun _ _ _ _ _ h => m1_consumes h) (T.length + 1) none T tok h
    obtain ⟨a, sep, b, ws, u, hs', htok, hadig, hane, _⟩ := m1_eq_some hm
    match a, hane, hadig with
    | a0 :: t, _, hadig =>
      have hmem : a0 ∈ T := by
        rw [hsplit, hs', htok]
        simp
      exact absurd (hadig a0 (by simp)) (by simp [hnd a0 hmem])
  · obtain ⟨pre, rest, r2, lc, hsplit, hm⟩ := findallAux_sound
      (fun _ _ _ _ _ h => m2_consumes h) (T.length + 1) none T tok h
    obtain ⟨a, b, sep, d, ws, u, hs', htok, hadig, hane, _⟩ := m2_eq_some hm
    match a, hane, hadig with
    | a0 :: t, _, hadig =>
      have hmem : a0 ∈ T := by
        rw [hsplit, hs', htok]
        simp
      exact absurd (hadig a0 (by simp)) (by simp [hnd a0 hmem])
  · obtain ⟨pre, rest, r2, lc, hsplit, hm⟩ := findallAux_sound
      (fun _ _ _ _ _ h => m3_consumes h) (T.length + 1) none T tok h
    obtain ⟨⟨a, ws, u, suf, hr, htok, hadig, hlen, _⟩, hs', _⟩ := m3_eq_some hm
    match a, hlen, hadig with
    | a0 :: t, _, hadig =>
      have hmem : a0 ∈ T := by
        rw [hsplit, hs', htok]
        simp
      exact absurd (hadig a0 (by simp)) (by simp [hnd a0 hmem])
  · obtain ⟨pre, rest, r2, lc, hsplit, hm⟩ := findallAux_sound
      (fun _ _ _ _ _ h => m4_consumes h) (T.length + 1) none T tok h
    obtain ⟨g, d, ws, u, hs', htok, hd, _⟩ := m4_eq_some hm
    have hmem : d ∈ T := by
      rw [hsplit, hs']
      simp
    exact absurd (isDigit_of_nz hd.1 hd.2) (by simp [hnd d hmem])
  · obtain ⟨pre, rest, r2, lc, hsplit, hm⟩ := findallAux_sound
      (fun _ _ _ _ _ h => m5_consumes h) (T.length + 1) none T tok h
    obtain ⟨a, b, ws, u, hs', htok, hadig, hane, _⟩ := m5_eq_some hm
    match a, hane, hadig with
    | a0 :: t, _, hadig =>
      have hmem : a0 ∈ T := by
        rw [hsplit, hs', htok]
        simp
      exact absurd (hadig a0 (by simp)) (by simp [hnd a0 hmem])
  · obtain ⟨pre, rest, r2, lc, hsplit, hm⟩ := findallAux_sound
      (fun _ _ _ _ _ h => m6_consumes h) (T.length + 1) none T tok h
    obtain ⟨a, b, hs', htok, hadig, hane, _⟩ := m6_eq_some hm
    match a, hane, hadig with
    | a0 :: t, _, hadig =>
      have hmem : a0 ∈ T := by
        rw [hsplit, hs', htok]
        simp
      exact absurd (hadig a0 (by simp)) (by simp [hnd a0 hmem])

/-! ## Claim C9 -/

/-- C9: the pipeline stages are total functions; on the empty label every
stage yields the empty result, absence of a brand yields `none`, and a label
without digits yields no quantities — never an error. -/
theorem C9_totality :
    supprimer_accents_et_caracteres_speciaux [] = [] ∧
    extraire_marque [] = none ∧
    extraire_grammage_volume [] = [] ∧
    traiter_libelle [] = [] ∧
    (∀ s : List Char, extraire_marque s = none ∨
      ∃ b ∈ marques, extraire_marque s = some b) ∧
    (∀ s : List Char, (∀ c ∈ s, c.isDigit = false) →
      extraire_grammage_volume s = []) := by
  refine ⟨by decide, by decide, by decide, by decide, ?_, ?_⟩
  · intro s
    cases hf : (marques.find? fun m => searchWord m (pyUpper s)) with
    | none => exact Or.inl hf
    | some b => exact Or.inr ⟨b, List.mem_of_find?_eq_some hf, hf⟩
  · intro s hnd
    have hnd' : ∀ c ∈ pyUpper s, c.isDigit = false := by
      intro c hc
      obtain ⟨c', hc', rfl⟩ := List.mem_map.mp hc
      rw [upChar_digit]
      exact hnd c' hc'
    obtain ⟨h1, h2, h3, h4, h5, h6⟩ := findall_empty_of_no_digit hnd'
    unfold extraire_grammage_volume tokensAvantDedup tokensRegles1a5
    rw [h1, h2, h3, h4, h5, h6]
    rfl

theorem C9_witness : extraire_grammage_volume (toL "ABC") = [] :=
  C9_totality.2.2.2.2.2 (toL "ABC") (by decide)

/-! ## Claim C3 -/

theorem noWordAfter_iff (l : List Char) : noWordAfter l = !(isWOpt l.head?) := by
  cases l <;> rfl

theorem getLastD_mem {c0 : Char} {t : List Char} :
    (c0 :: t).getLastD c0 ∈ c0 :: t := by
  obtain ⟨q, hq⟩ := Option.isSome_iff_exists.mp
    (List.getLast?_isSome.mpr (by simp : (c0 :: t) ≠ []))
  rw [List.getLastD_eq_getLast?, hq]
  exact getLast?_some_mem hq

theorem stripLit_cs_some {lit : List Char} : ∀ {s m rest : List Char},
    stripLit false lit s = some (m, rest) → m = lit ∧ s = lit ++ rest := by
  induction lit with
  | nil =>
    intro s m rest h
    unfold stripLit at h
    injection h with h1
    injection h1 with h2 h3
    subst h2
    subst h3
    exact ⟨rfl, rfl⟩
  | cons l ls ih =>
    intro s m rest h
    match s, h with
    | c :: cs, h =>
      dsimp only [stripLit] at h
      rw [if_neg (by simp : ¬(false = true))] at h
      by_cases hc : (c == l) = true
      · rw [if_pos hc] at h
        cases hs : stripLit false ls cs with
        | none =>
          rw [hs] at h
          exact Option.noConfusion h
        | some res =>
          obtain ⟨m', r'⟩ := res
          rw [hs] at h
          dsimp only at h
          injection h with h1
          injection h1 with h2 h3
          subst h2
          subst h3
          obtain ⟨hm', hcs⟩ := ih hs
          subst hm'
          rw [beq_iff_eq] at hc
          subst hc
          exact ⟨rfl, by rw [hcs]; rfl⟩
      · rw [if_neg hc] at h
        exact Option.noConfusion h

theorem stripLit_cs_complete : ∀ (lit rest : List Char),
    stripLit false lit (lit ++ rest) = some (lit, rest) := by
  intro lit
  induction lit with
  | nil =>
    intro rest
    rfl
  | cons l ls ih =>
    intro rest
    dsimp only [stripLit, List.cons_append]
    rw [if_neg (by simp : ¬(false = true)), if_pos (by simp : (l == l) = true), ih]

theorem matchWordAt_cs_some {lit s m rest : List Char} {prev : Option Char}
    (hlit : ∀ c ∈ lit, isWordChar c = true)
    (h : matchWordAt false lit prev s = some (m, rest)) :
    m = lit ∧ s = lit ++ rest ∧ isWOpt prev = false ∧ noWordAfter rest = true := by
  unfold matchWordAt at h
  cases hs : stripLit false lit s with
  | none =>
    rw [hs] at h
    exact Option.noConfusion h
  | some res =>
    obtain ⟨m0, rest0⟩ := res
    rw [hs] at h
    dsimp only at h
    obtain ⟨hm0, hsplit⟩ := stripLit_cs_some hs
    rw [hm0] at h
    match lit, hsplit, hlit, h with
    | c0 :: t, hsplit, hlit, h =>
      dsimp only at h
      by_cases hb : ((isWOpt prev != isWordChar c0) &&
          (isWordChar ((c0 :: t).getLastD c0) != isWOpt rest0.head?)) = true
      swap
      · rw [if_neg hb] at h
        exact Option.noConfusion h
      rw [if_pos hb] at h
      injection h with h1
      injection h1 with h2 h3
      subst h2
      subst h3
      simp only [Bool.and_eq_true, bne_iff_ne, Ne] at hb
      obtain ⟨hb1, hb2⟩ := hb
      refine ⟨rfl, hsplit, ?_, ?_⟩
      · rw [hlit c0 (by simp)] at hb1
        cases hval : isWOpt prev with
        | false => rfl
        | true => exact absurd (hval.trans rfl) hb1
      · rw [hlit _ getLastD_mem] at hb2
        have hh : isWOpt rest0.head? = false := by
          cases hval : isWOpt rest0.head? with
          | false => rfl
          | true => exact absurd hval.symm hb2
        rw [noWordAfter_iff, hh]
        rfl

theorem matchWordAt_cs_of {lit rest : List Char} {prev : Option Char}
    (hne : lit ≠ []) (hlit : ∀ c ∈ lit, isWordChar c = true)
    (hprev : isWOpt prev = false) (hafter : noWordAfter rest = true) :
    matchWordAt false lit prev (lit ++ rest) = some (lit, rest) := by
  unfold matchWordAt
  rw [stripLit_cs_complete]
  dsimp only
  match lit, hne, hlit with
  | c0 :: t, _, hlit =>
    dsimp only
    rw [noWordAfter_iff] at hafter
    have hra : isWOpt rest.head? = false := by
      cases hval : isWOpt rest.head? with
      | false => rfl
      | true =>
        rw [hval] at hafter
        exact absurd hafter (by simp)
    rw [if_pos]
    simp only [Bool.and_eq_true, bne_iff_ne, Ne]
    constructor
    · rw [hprev, hlit c0 (by simp)]
      simp
    · rw [hra, hlit _ getLastD_mem]
      simp

theorem searchWordAux_iff {lit : List Char} (hne : lit ≠ [])
    (hlit : ∀ c ∈ lit, isWordChar c = true) :
    ∀ (prev : Option Char) (T : List Char),
      searchWordAux lit prev T = true ↔
        ∃ pre suf, T = pre ++ lit ++ suf ∧
          isWOpt (lastOpt prev pre) = false ∧ noWordAfter suf = true := by
  intro prev T
  induction T generalizing prev with
  | nil =>
    simp only [searchWordAux]
    constructor
    · intro h
      exact absurd h (by simp)
    · rintro ⟨pre, suf, hT, _, _⟩
      match lit, hne with
      | l :: ls, _ =>
        cases pre with
        | nil => simp at hT
        | cons x t => simp at hT
  | cons c cs ih =>
    simp only [searchWordAux, Bool.or_eq_true]
    constructor
    · rintro (h | h)
      · cases hmw : matchWordAt false lit prev (c :: cs) with
        | none =>
          rw [hmw] at h
          simp at h
        | some res =>
          obtain ⟨m, rest⟩ := res
          obtain ⟨hm, hs, hprev, hafter⟩ := matchWordAt_cs_some hlit hmw
          exact ⟨[], rest, by simpa using hs, by simpa [lastOpt] using hprev,
            hafter⟩
      · obtain ⟨pre, suf, hT, hb, ha⟩ := (ih (some c)).mp h
        refine ⟨c :: pre, suf, by rw [hT]; rfl, ?_, ha⟩
        rwa [lastOpt_cons]
    · rintro ⟨pre, suf, hT, hb, ha⟩
      cases pre with
      | nil =>
        left
        simp only [List.nil_append] at hT
        rw [hT, matchWordAt_cs_of hne hlit (by simpa [lastOpt] using hb) ha]
        rfl
      | cons p0 pr =>
        right
        injection hT with h1 h2
        subst h1
        apply (ih (some c)).mpr
        refine ⟨pr, suf, h2, ?_, ha⟩
        rwa [lastOpt_cons] at hb

/-- The claim's notion of a whole-word brand occurrence: bounded by
non-alphanumeric characters or string edges. -/
def OccWord (b T : List Char) : Prop :=
  ∃ pre suf, T = pre ++ b ++ suf ∧
    (pre = [] ∨ ∃ c, pre.getLast? = some c ∧ c.isAlphanum = false) ∧
    (suf = [] ∨ ∃ c, suf.head? = some c ∧ c.isAlphanum = false)

theorem searchWord_iff_occWord {b T : List Char} (hne : b ≠ [])
    (hlit : ∀ c ∈ b, isWordChar c = true)
    (hT : ∀ c ∈ T, isWordChar c = c.isAlphanum) :
    searchWord b T = true ↔ OccWord b T := by
  unfold searchWord
  rw [searchWordAux_iff hne hlit none T]
  constructor
  · rintro ⟨pre, suf, hTd, hb, ha⟩
    refine ⟨pre, suf, hTd, ?_, ?_⟩
    · cases pre with
      | nil => exact Or.inl rfl
      | cons p0 pr =>
        right
        obtain ⟨q, hq⟩ := Option.isSome_iff_exists.mp
          (List.getLast?_isSome.mpr (by simp : (p0 :: pr) ≠ []))
        refine ⟨q, hq, ?_⟩
        rw [show lastOpt none (p0 :: pr) = some q from by simp [lastOpt, hq]]
          at hb
        have hqw : isWordChar q = false := by simpa [isWOpt] using hb
        have hqm : q ∈ T := by
          rw [hTd]
          exact List.mem_append_left _ (List.mem_append_left _
            (getLast?_some_mem hq))
        rw [← hT q hqm]
        exact hqw
    · cases suf with
      | nil => exact Or.inl rfl
      | cons c0 t =>
        right
        refine ⟨c0, rfl, ?_⟩
        have hcw : isWordChar c0 = false := by simpa [noWordAfter] using ha
        have hcm : c0 ∈ T := by
          rw [hTd]
          exact List.mem_append_right _ (by simp)
        rw [← hT c0 hcm]
        exact hcw
  · rintro ⟨pre, suf, hTd, hb, ha⟩
    refine ⟨pre, suf, hTd, ?_, ?_⟩
    · rcases hb with rfl | ⟨q, hq, hqa⟩
      · rfl
      · rw [show lastOpt none pre = some q from by simp [lastOpt, hq]]
        have hqm : q ∈ T := by
          rw [hTd]
          exact List.mem_append_left _ (List.mem_append_left _
            (getLast?_some_mem hq))
        simp only [isWOpt]
        rw [hT q hqm]
        exact hqa
    · rcases ha with rfl | ⟨c0, hh, hca⟩
      · rfl
      · cases suf with
        | nil => exact Option.noConfusion hh
        | cons d t =>
          injection hh with hh
          subst hh
          have hcm : d ∈ T := by
            rw [hTd]
            exact List.mem_append_right _ (by simp)
          simp only [noWordAfter]
          rw [hT d hcm]
          simp [hca]

theorem upChar_ne_underscore {c : Char} (h : goodChar c = true) :
    (upChar c == '_') = false := by
  unfold upChar
  split
  any_goals decide
  simp only [beq_eq_false_iff_ne, Ne]
  intro he
  rw [he] at h
  exact absurd h (by decide)

theorem word_eq_alnum_of_san {s : List Char}
    (hs : supprimer_accents_et_caracteres_speciaux s = s) :
    ∀ c ∈ pyUpper s, isWordChar c = c.isAlphanum := by
  have hform : sanForm s = true := by
    rw [← hs]
    exact sanForm_san s
  simp only [sanForm, Bool.and_eq_true, List.all_eq_true] at hform
  obtain ⟨⟨⟨hg, _⟩, _⟩, _⟩ := hform
  intro c hc
  obtain ⟨c', hc', rfl⟩ := List.mem_map.mp hc
  have hg' : goodChar c' = true := by simpa using hg c' hc'
  unfold isWordChar
  rw [upChar_ne_underscore hg']
  simp

theorem find?_eq_some_split {p : List Char → Bool} :
    ∀ (L : List (List Char)) (b : List Char),
      L.find? p = some b ↔
        ∃ l1 l2, L = l1 ++ b :: l2 ∧ p b = true ∧ ∀ x ∈ l1, p x = false := by
  intro L
  induction L with
  | nil =>
    intro b
    simp
  | cons a L ih =>
    intro b
    by_cases hp : p a = true
    · rw [List.find?_cons_of_pos _ hp]
      constructor
      · intro h
        injection h with h1
        subst h1
        exact ⟨[], L, rfl, hp, by simp⟩
      · rintro ⟨l1, l2, hL, hb, hl1⟩
        cases l1 with
        | nil =>
          injection hL with e1 e2
          rw [e1]
        | cons x l1' =>
          injection hL with e1 e2
          subst e1
          exact absurd hp (by simp [hl1 a (by simp)])
    · rw [List.find?_cons_of_neg _ (by simpa using hp)]
      rw [ih]
      constructor
      · rintro ⟨l1, l2, hL, hb, hl1⟩
        refine ⟨a :: l1, l2, by rw [hL]; rfl, hb, ?_⟩
        intro x hx
        rcases List.mem_cons.mp hx with rfl | hx
        · simpa using hp
        · exact hl1 x hx
      · rintro ⟨l1, l2, hL, hb, hl1⟩
        cases l1 with
        | nil =>
          injection hL with e1 e2
          subst e1
          exact absurd hb hp
        | cons x l1' =>
          injection hL with e1 e2
          subst e1
          exact ⟨l1', l2, e2, hb, fun y hy => hl1 y (by simp [hy])⟩

/-- C3: on sanitized text, brand extraction returns the first brand in
configured list order that occurs as a whole word (bounded by
non-alphanumeric characters or string edges) in the uppercased text — even if
a later-listed brand occurs earlier in the text — and `none` when no brand
occurs. -/
theorem C3_brand_priority (s : List Char)
    (hs : supprimer_accents_et_caracteres_speciaux s = s) :
    (∀ b, extraire_marque s = some b ↔
      ∃ l1 l2, marques = l1 ++ b :: l2 ∧ OccWord b (pyUpper s) ∧
        ∀ m ∈ l1, ¬OccWord m (pyUpper s)) ∧
    (extraire_marque s = none ↔ ∀ m ∈ marques, ¬OccWord m (pyUpper s)) := by
  have hT := word_eq_alnum_of_san hs
  have hmq : ∀ m ∈ marques, m ≠ [] ∧ ∀ c ∈ m, isWordChar c = true := by decide
  constructor
  · intro b
    unfold extraire_marque
    rw [find?_eq_some_split]
    constructor
    · rintro ⟨l1, l2, hL, hb, hl1⟩
      have hbm : b ∈ marques := by
        rw [hL]
        simp
      obtain ⟨hbne, hbw⟩ := hmq b hbm
      refine ⟨l1, l2, hL, (searchWord_iff_occWord hbne hbw hT).mp hb, ?_⟩
      intro m hm
      have hmm : m ∈ marques := by
        rw [hL]
        simp [List.mem_append, hm]
      obtain ⟨hmne, hmw⟩ := hmq m hmm
      rw [← searchWord_iff_occWord hmne hmw hT]
      simp [hl1 m hm]
    · rintro ⟨l1, l2, hL, hocc, hl1⟩
      have hbm : b ∈ marques := by
        rw [hL]
        simp
      obtain ⟨hbne, hbw⟩ := hmq b hbm
      refine ⟨l1, l2, hL, (searchWord_iff_occWord hbne hbw hT).mpr hocc, ?_⟩
      intro x hx
      have hxm : x ∈ marques := by
        rw [hL]
        simp [List.mem_append, hx]
      obtain ⟨hxne, hxw⟩ := hmq x hxm
      have hx2 := hl1 x hx
      rw [← searchWord_iff_occWord hxne hxw hT] at hx2
      simpa using hx2
  · unfold extraire_marque
    rw [List.find?_eq_none]
    constructor
    · intro h m hm
      obtain ⟨hmne, hmw⟩ := hmq m hm
      rw [← searchWord_iff_occWord hmne hmw hT]
      simp [h m hm]
    · intro h m hm
      obtain ⟨hmne, hmw⟩ := hmq m hm
      have hm2 := h m hm
      rw [← searchWord_iff_occWord hmne hmw hT] at hm2
      simpa using hm2

theorem C3_witness :
    supprimer_accents_et_caracteres_speciaux (toL "PM CRF 1L") =
        toL "PM CRF 1L" ∧
    (extraire_marque (toL "PM CRF 1L") = some (toL "CRF") ↔
      ∃ l1 l2, marques = l1 ++ toL "CRF" :: l2 ∧
        OccWord (toL "CRF") (pyUpper (toL "PM CRF 1L")) ∧
        ∀ m ∈ l1, ¬OccWord m (pyUpper (toL "PM CRF 1L"))) :=
  ⟨by decide, (C3_brand_priority (toL "PM CRF 1L") (by decide)).1 (toL "CRF")⟩

/-! ## Claim C8 -/

/-- Case-insensitive equality of two character lists. -/
def ciEqL : List Char → List Char → Bool
  | [], [] => true
  | x :: xs, y :: ys => ciEqChar x y && ciEqL xs ys
  | _, _ => false

theorem stripLit_ci_some {lit : List Char} : ∀ {s m rest : List Char},
    stripLit true lit s = some (m, rest) →
      s = m ++ rest ∧ ciEqL m lit = true := by
  induction lit with
  | nil =>
    intro s m rest h
    unfold stripLit at h
    injection h with h1
    injection h1 with h2 h3
    subst h2
    subst h3
    exact ⟨rfl, rfl⟩
  | cons l ls ih =>
    intro s m rest h
    match s, h with
    | c :: cs, h =>
      dsimp only [stripLit] at h
      rw [if_pos (rfl : true = true)] at h
      by_cases hc : ciEqChar c l = true
      · rw [if_pos hc] at h
        cases hs : stripLit true ls cs with
        | none =>
          rw [hs] at h
          exact Option.noConfusion h
        | some res =>
          obtain ⟨m', r'⟩ := res
          rw [hs] at h
          dsimp only at h
          injection h with h1
          injection h1 with h2 h3
          subst h2
          subst h3
          obtain ⟨hcs, hci⟩ := ih hs
          refine ⟨by rw [hcs]; rfl, ?_⟩
          dsimp only [ciEqL]
          rw [hc, hci]
          rfl
      · rw [if_neg hc] at h
        exact Option.noConfusion h

theorem matchWordAt_ci_some {lit s m rest : List Char} {prev : Option Char}
    (h : matchWordAt true lit prev s = some (m, rest)) :
    s = m ++ rest ∧ ciEqL m lit = true ∧
      ∃ c0 t, m = c0 :: t ∧
        (isWOpt prev != isWordChar c0) = true ∧
        (isWordChar (m.getLastD c0) != isWOpt rest.head?) = true := by
  unfold matchWordAt at h
  cases hs : stripLit true lit s with
  | none =>
    rw [hs] at h
    exact Option.noConfusion h
  | some res =>
    obtain ⟨m0, rest0⟩ := res
    rw [hs] at h
    dsimp only at h
    obtain ⟨hsplit, hci⟩ := stripLit_ci_some hs
    match m0, hsplit, hci, h with
    | c0 :: t, hsplit, hci, h =>
      dsimp only at h
      by_cases hb : ((isWOpt prev != isWordChar c0) &&
          (isWordChar ((c0 :: t).getLastD c0) != isWOpt rest0.head?)) = true
      swap
      · rw [if_neg hb] at h
        exact Option.noConfusion h
      rw [if_pos hb] at h
      injection h with h1
      injection h1 with h2 h3
      subst h2
      subst h3
      simp only [Bool.and_eq_true] at hb
      exact ⟨hsplit, hci, c0, t, rfl, hb.1, hb.2⟩

/-- One whole-word, case-insensitive removal pass: the output is the input
with some whole-word occurrences of the literal deleted and every other
character kept, in order. -/
inductive WRem (lit : List Char) : Option Char → List Char → List Char → Prop
  | nil (prev : Option Char) : WRem lit prev [] []
  | keep (prev : Option Char) (c : Char) (s t : List Char) :
      WRem lit (some c) s t → WRem lit prev (c :: s) (c :: t)
  | drop (prev : Option Char) (c0 : Char) (mt rest t : List Char)
      (hci : ciEqL (c0 :: mt) lit = true)
      (hb1 : (isWOpt prev != isWordChar c0) = true)
      (hb2 : (isWordChar ((c0 :: mt).getLastD c0) != isWOpt rest.head?) = true)
      (hrec : WRem lit (some ((c0 :: mt).getLastD c0)) rest t) :
      WRem lit prev ((c0 :: mt) ++ rest) t

theorem subWordAux_WRem (lit : List Char) :
    ∀ fuel (prev : Option Char) (s : List Char), s.length ≤ fuel →
      WRem lit prev s (subWordAux lit fuel prev s) := by
  intro fuel
  induction fuel with
  | zero =>
    intro prev s hlen
    have hs : s = [] := List.length_eq_zero.mp (Nat.le_zero.mp hlen)
    subst hs
    exact WRem.nil prev
  | succ n ih =>
    intro prev s hlen
    cases s with
    | nil => exact WRem.nil prev
    | cons c cs =>
      cases hmw : matchWordAt true lit prev (c :: cs) with
      | some res =>
        obtain ⟨m, rest⟩ := res
        obtain ⟨hsplit, hci, c0, t, hm, hb1, hb2⟩ := matchWordAt_ci_some hmw
        subst hm
        have e : subWordAux lit (n + 1) prev (c :: cs) =
            subWordAux lit n ((c0 :: t).getLastD c) rest := by
          simp only [subWordAux, hmw]
        have ed : (c0 :: t).getLastD c = (c0 :: t).getLastD c0 := by
          obtain ⟨q, hq⟩ := Option.isSome_iff_exists.mp
            (List.getLast?_isSome.mpr (by simp : (c0 :: t) ≠ []))
          rw [List.getLastD_eq_getLast?, List.getLastD_eq_getLast?, hq]
          rfl
        rw [e, ed, hsplit]
        apply WRem.drop prev c0 t rest _ hci hb1 hb2
        apply ih
        have hl2 : (c :: cs).length = (c0 :: t).length + rest.length := by
          rw [hsplit, List.length_append]
        simp only [List.length_cons] at hl2 hlen
        omega
      | none =>
        have e : subWordAux lit (n + 1) prev (c :: cs) =
            c :: subWordAux lit n (some c) cs := by
          simp only [subWordAux, hmw]
        rw [e]
        refine WRem.keep prev c cs _ (ih (some c) cs ?_)
        simp only [List.length_cons] at hlen
        omega

theorem subWordLit_WRem (lit s : List Char) :
    WRem lit none s (subWordLit lit s) :=
  subWordAux_WRem lit (s.length + 1) none s (by omega)

/-- A whole-word, case-insensitive occurrence of `lit` somewhere in `s`. -/
def OccWordCi (lit s : List Char) : Prop :=
  ∃ pre m suf c0 t, s = pre ++ m ++ suf ∧ m = c0 :: t ∧ ciEqL m lit = true ∧
    (isWOpt (lastOpt none pre) != isWordChar c0) = true ∧
    (isWordChar (m.getLastD c0) != isWOpt suf.head?) = true

theorem subWordAux_id_or_occ (lit : List Char) :
    ∀ fuel (prev : Option Char) (s : List Char),
      subWordAux lit fuel prev s = s ∨
        ∃ pre m suf c0 t, s = pre ++ m ++ suf ∧ m = c0 :: t ∧
          ciEqL m lit = true ∧
          (isWOpt (lastOpt prev pre) != isWordChar c0) = true ∧
          (isWordChar (m.getLastD c0) != isWOpt suf.head?) = true := by
  intro fuel
  induction fuel with
  | zero =>
    intro prev s
    exact Or.inl rfl
  | succ n ih =>
    intro prev s
    cases s with
    | nil => exact Or.inl rfl
    | cons c cs =>
      cases hmw : matchWordAt true lit prev (c :: cs) with
      | some res =>
        obtain ⟨m, rest⟩ := res
        obtain ⟨hsplit, hci, c0, t, hm, hb1, hb2⟩ := matchWordAt_ci_some hmw
        right
        exact ⟨[], m, rest, c0, t, by simpa using hsplit, hm, hci,
          by simpa [lastOpt] using hb1, hb2⟩
      | none =>
        have e : subWordAux lit (n + 1) prev (c :: cs) =
            c :: subWordAux lit n (some c) cs := by
          simp only [subWordAux, hmw]
        rcases ih (some c) cs with h1 |
          ⟨pre, m, suf, c0, t, hsp, hm, hci, hb1, hb2⟩
        · left
          rw [e, h1]
        · right
          refine ⟨c :: pre, m, suf, c0, t, by rw [hsp]; rfl, hm, hci, ?_, hb2⟩
          rwa [lastOpt_cons]

theorem subWordLit_id_or_occ (lit s : List Char) :
    subWordLit lit s = s ∨ OccWordCi lit s :=
  subWordAux_id_or_occ lit (s.length + 1) none s

/-- A chain of whole-word removal passes, one per literal. -/
def WRemChain : List (List Char) → List Char → List Char → Prop
  | [], s, t => t = s
  | l :: ls, s, t => ∃ mid, WRem l none s mid ∧ WRemChain ls mid t

theorem applySubs_WRemChain (lits : List (List Char)) :
    ∀ s, WRemChain lits s (applySubs lits s) := by
  induction lits with
  | nil =>
    intro s
    exact rfl
  | cons l ls ih =>
    intro s
    exact ⟨subWordLit l s, subWordLit_WRem l s, ih (subWordLit l s)⟩

/-- C8: product-name reduction performs, for the brand and for each quantity
in both its comma and dot spellings, a pass that deletes only whole-word
case-insensitive occurrences of that literal and keeps every other character
in order (`WRem`); a pass that finds no whole-word occurrence leaves the text
unchanged — in particular a partial match inside a longer alphanumeric run is
never removed; and the product name is exactly the whitespace-normalized
result of these passes. -/
theorem C8_whole_word_removal :
    (∀ (lits : List (List Char)) (t : List Char),
      WRemChain lits t (applySubs lits t)) ∧
    (∀ (lit t : List Char), subWordLit lit t = t ∨ OccWordCi lit t) ∧
    (∀ (nettoye : List Char) (marque : Option (List Char))
        (gvs : List (List Char)),
      nom_produit nettoye marque gvs =
        pyStrip (collapseWS (applySubs (removalLits marque gvs) nettoye))) :=
  ⟨fun lits t => applySubs_WRemChain lits t,
   fun lit t => subWordLit_id_or_occ lit t,
   fun _ _ _ => rfl⟩

/-! ## Claim C2 -/

/-- C2 counterexample: the claim as stated fails on the code.  In the
sanitized text "05G", the token "05G" is a whole-word occurrence of an
integer of two digits directly adjacent to a unit, yet rule 3 captures
nothing, because the pattern `(?:[1-9]\d{2,}|[1-9]\d)` requires a nonzero
first digit. -/
theorem C2_counterexample :
    supprimer_accents_et_caracteres_speciaux (toL "05G") = toL "05G" ∧
    Rule3Occ (pyUpper (toL "05G")) (toL "05G") ∧
    pyFindall m3 (pyUpper (toL "05G")) = [] := by
  refine ⟨by decide, ?_, by decide⟩
  exact ⟨[], toL "05", [], toL "G", [], by decide, rfl,
    by unfold AllDigits; decide, by decide, Or.inl rfl,
    by unfold UnitTok; decide, Or.inl rfl, Or.inl rfl⟩

/-- C2 (amended): for every sanitized text, rule 3 captures exactly the
whole-word occurrences of an integer of two or more digits whose first digit
is nonzero, followed by an optional space and a unit in
{KG, G, L, ML, CL}. -/
theorem C2_rule3_exact (s : List Char)
    (hs : supprimer_accents_et_caracteres_speciaux s = s) (tok : List Char) :
    tok ∈ pyFindall m3 (pyUpper s) ↔ Rule3OccNZ (pyUpper s) tok := by
  have hform : sanForm s = true := by
    rw [← hs]
    exact sanForm_san s
  simp only [sanForm, Bool.and_eq_true, List.all_eq_true] at hform
  obtain ⟨⟨⟨hg, hd⟩, _⟩, _⟩ := hform
  rw [findall3_iff]
  apply occ3C_iff_rule3OccNZ
  · intro c hc hwsc
    obtain ⟨c', hc', rfl⟩ := List.mem_map.mp hc
    have hg' : goodChar c' = true := by simpa using hg c' hc'
    rw [upChar_ws] at hwsc
    rw [goodChar_ws hg' hwsc]
    rfl
  · rw [noDbl_pyUpper]
    exact hd

theorem C2_rule3_exact_witness :
    supprimer_accents_et_caracteres_speciaux (toL "LOT 40 G") = toL "LOT 40 G" ∧
    (toL "40 G" ∈ pyFindall m3 (pyUpper (toL "LOT 40 G")) ↔
      Rule3OccNZ (pyUpper (toL "LOT 40 G")) (toL "40 G")) :=
  ⟨by decide, C2_rule3_exact (toL "LOT 40 G") (by decide) (toL "40 G")⟩

/-! ## Claim C1 -/

/-- C1: the full pipeline on "Désodorisant 2.5ml 4scent": sanitized to
"Desodorisant 2.5ml 4scent", quantities exactly ["2,5ML"] (dot normalized to
comma), no brand, the unmatched digit 4 kept in the product name, final
result "DESODORISANT 4SCENT 2,5ML". -/
theorem C1_pipeline_desodorisant :
    supprimer_accents_et_caracteres_speciaux (toL "Désodorisant 2.5ml 4scent") =
        toL "Desodorisant 2.5ml 4scent" ∧
    extraire_grammage_volume (toL "Desodorisant 2.5ml 4scent") = [toL "2,5ML"] ∧
    extraire_marque (toL "Desodorisant 2.5ml 4scent") = none ∧
    nom_produit (toL "Desodorisant 2.5ml 4scent") none [toL "2,5ML"] =
        toL "Desodorisant 4scent" ∧
    traiter_libelle (toL "Désodorisant 2.5ml 4scent") =
        toL "DESODORISANT 4SCENT 2,5ML" :=
  ⟨by decide, by decide, by decide, by decide, by decide⟩

/-! ## Claim C4 -/

/-- C4: rule 4 captures a single digit 1–9 with a unit (after optional
whitespace) only when the digit is preceded by the start of the text or one
whitespace character; on "5 BQ ALU 1,5L PROFONDE" only "1,5L" is extracted
and the final label is "5 BQ ALU PROFONDE 1,5L". -/
theorem C4_rule4_guard :
    (∀ (T tok : List Char), tok ∈ pyFindall m4 T →
      ∃ pre g d ws u rest, T = pre ++ (g ++ d :: ws ++ u) ++ rest ∧
        tok = d :: u ∧ ('1' ≤ d ∧ d ≤ '9') ∧ AllWS ws ∧ UnitTok u ∧
        ((g = [] ∧ pre = []) ∨ (∃ w, g = [w] ∧ isPyWS w = true)) ∧
        noWordAfter rest = true) ∧
    extraire_grammage_volume (toL "5 BQ ALU 1,5L PROFONDE") = [toL "1,5L"] ∧
    traiter_libelle (toL "5 BQ ALU 1,5L PROFONDE") =
        toL "5 BQ ALU PROFONDE 1,5L" := by
  refine ⟨?_, by decide, by decide⟩
  intro T tok h
  obtain ⟨pre, rest, r2, lc, hsplit, hm⟩ := findallAux_sound
    (fun _ _ _ _ _ h => m4_consumes h) (T.length + 1) none T tok h
  obtain ⟨g, d, ws, u, hs', htok, hd, hws, hu, _, hguard, haf⟩ := m4_eq_some hm
  refine ⟨pre, g, d, ws, u, r2, ?_, htok, hd, hws, hu, ?_, haf⟩
  · rw [hsplit, hs']
    simp [List.append_assoc]
  · rcases hguard with ⟨hg, hprev⟩ | hw
    · left
      refine ⟨hg, ?_⟩
      cases pre with
      | nil => rfl
      | cons p0 pr =>
        exfalso
        obtain ⟨q, hq⟩ := Option.isSome_iff_exists.mp
          (List.getLast?_isSome.mpr (by simp : (p0 :: pr) ≠ []))
        rw [show lastOpt none (p0 :: pr) = some q from by simp [lastOpt, hq]]
          at hprev
        exact Option.noConfusion hprev
    · exact Or.inr hw

theorem C4_witness :
    toL "4G" ∈ pyFindall m4 (toL "A 4 G") ∧
    (∃ pre g d ws u rest,
      toL "A 4 G" = pre ++ (g ++ d :: ws ++ u) ++ rest ∧
      toL "4G" = d :: u ∧ ('1' ≤ d ∧ d ≤ '9') ∧ AllWS ws ∧ UnitTok u ∧
      ((g = [] ∧ pre = []) ∨ (∃ w, g = [w] ∧ isPyWS w = true)) ∧
      noWordAfter rest = true) :=
  ⟨by decide, C4_rule4_guard.1 (toL "A 4 G") (toL "4G") (by decide)⟩

/-! ## Claim C10 -/

/-- C10: rule 4's captured token is the digit concatenated directly with the
unit, dropping the whitespace matched by `\s*`; rules 1, 2, 3 and 5 keep the
matched whitespace inside the token, as the concrete extractions show. -/
theorem C10_whitespace_in_tokens :
    (∀ (T tok : List Char), tok ∈ pyFindall m4 T →
      ∃ pre g d ws u rest, T = pre ++ (g ++ d :: ws ++ u) ++ rest ∧
        tok = d :: u) ∧
    (∀ (T tok : List Char), tok ∈ pyFindall m3 T →
      ∃ pre a ws u rest, T = pre ++ (a ++ ws ++ u) ++ rest ∧
        tok = a ++ ws ++ u ∧ AllWS ws) ∧
    (∀ (T tok : List Char), tok ∈ pyFindall m1 T →
      ∃ pre a sep b ws u rest, T = pre ++ (a ++ sep :: b ++ ws ++ u) ++ rest ∧
        tok = a ++ sep :: b ++ ws ++ u ∧ AllWS ws) ∧
    (∀ (T tok : List Char), tok ∈ pyFindall m2 T →
      ∃ pre a b sep d ws u rest,
        T = pre ++ (a ++ 'X' :: b ++ sep ++ d ++ ws ++ u) ++ rest ∧
        tok = a ++ 'X' :: b ++ sep ++ d ++ ws ++ u ∧ AllWS ws) ∧
    (∀ (T tok : List Char), tok ∈ pyFindall m5 T →
      ∃ pre a b ws u rest, T = pre ++ (a ++ '/' :: b ++ ws ++ u) ++ rest ∧
        tok = a ++ '/' :: b ++ ws ++ u ∧ AllWS ws) ∧
    extraire_grammage_volume (toL "LOT 4 G") = [toL "4G"] ∧
    extraire_grammage_volume (toL "LOT 40 G") = [toL "40 G"] ∧
    extraire_grammage_volume (toL "2.5 ML") = [toL "2,5 ML"] := by
  refine ⟨?_, ?_, ?_, ?_, ?_, by decide, by decide, by decide⟩
  · intro T tok h
    obtain ⟨pre, rest, r2, lc, hsplit, hm⟩ := findallAux_sound
      (fun _ _ _ _ _ h => m4_consumes h) (T.length + 1) none T tok h
    obtain ⟨g, d, ws, u, hs', htok, _, _, _, _, _, _⟩ := m4_eq_some hm
    exact ⟨pre, g, d, ws, u, r2, by rw [hsplit, hs']; simp [List.append_assoc], htok⟩
  · intro T tok h
    obtain ⟨pre, rest, r2, lc, hsplit, hm⟩ := findallAux_sound
      (fun _ _ _ _ _ h => m3_consumes h) (T.length + 1) none T tok h
    obtain ⟨⟨a, ws, u, suf, hr, htok, _, _, _, hws, _, _, _⟩, hs', _⟩ :=
      m3_eq_some hm
    refine ⟨pre, a, ws, u, r2, ?_, htok, hws⟩
    rw [hsplit, hs', htok]
    simp [List.append_assoc]
  · intro T tok h
    obtain ⟨pre, rest, r2, lc, hsplit, hm⟩ := findallAux_sound
      (fun _ _ _ _ _ h => m1_consumes h) (T.length + 1) none T tok h
    obtain ⟨a, sep, b, ws, u, hs', htok, _, _, _, _, _, hws, _, _, _, _⟩ :=
      m1_eq_some hm
    exact ⟨pre, a, sep, b, ws, u, r2,
      by rw [hsplit, hs', htok]; simp [List.append_assoc], htok, hws⟩
  · intro T tok h
    obtain ⟨pre, rest, r2, lc, hsplit, hm⟩ := findallAux_sound
      (fun _ _ _ _ _ h => m2_consumes h) (T.length + 1) none T tok h
    obtain ⟨a, b, sep, d, ws, u, hs', htok, _, _, _, _, _, _, hws, _, _, _, _⟩ :=
      m2_eq_some hm
    exact ⟨pre, a, b, sep, d, ws, u, r2,
      by rw [hsplit, hs', htok]; simp [List.append_assoc], htok, hws⟩
  · intro T tok h
    obtain ⟨pre, rest, r2, lc, hsplit, hm⟩ := findallAux_sound
      (fun _ _ _ _ _ h => m5_consumes h) (T.length + 1) none T tok h
    obtain ⟨a, b, ws, u, hs', htok, _, _, _, _, hws, _, _, _, _⟩ :=
      m5_eq_some hm
    exact ⟨pre, a, b, ws, u, r2,
      by rw [hsplit, hs', htok]; simp [List.append_assoc], htok, hws⟩

theorem C10_witness :
    toL "4G" ∈ pyFindall m4 (toL "LOT 4 G") ∧
    (∃ pre g d ws u rest,
      toL "LOT 4 G" = pre ++ (g ++ d :: ws ++ u) ++ rest ∧ toL "4G" = d :: u) :=
  ⟨by decide, C10_whitespace_in_tokens.1 (toL "LOT 4 G") (toL "4G") (by decide)⟩

/-! ## Claim C6 -/

/-- Specification of the rule-6 selection: a fraction is kept only when it is
not contained in any token of the running list; kept fractions join the
running list for the following ones. -/
def sel6 (acc : List (List Char)) : List (List Char) → List (List Char)
  | [] => []
  | m :: ms =>
    if acc.any (fun gv => containsSub m gv) then sel6 acc ms
    else m :: sel6 (acc ++ [m]) ms

theorem fold6_eq_sel6 : ∀ (ms base : List (List Char)),
    ms.foldl (fun acc m => if acc.any (fun gv => containsSub m gv) then acc
      else acc ++ [m]) base = base ++ sel6 base ms := by
  intro ms
  induction ms with
  | nil =>
    intro base
    simp [sel6]
  | cons m ms ih =>
    intro base
    simp only [List.foldl_cons, sel6]
    by_cases hc : (base.any fun gv => containsSub m gv) = true
    · rw [if_pos hc, if_pos hc, ih]
    · rw [if_neg hc, if_neg hc, ih]
      simp

/-- C6: the pre-deduplication token list equals the rules-1→5 tokens followed
by the rule-6 fractions selected by the containment filter (a fraction is
appended only if not contained in a token already in the running list), and
every rule-6 match is a bare fraction: digits, a slash, digits. -/
theorem C6_rule6_containment (s : List Char) :
    tokensAvantDedup (pyUpper s) =
      tokensRegles1a5 (pyUpper s) ++
        sel6 (tokensRegles1a5 (pyUpper s)) (pyFindall m6 (pyUpper s)) ∧
    (∀ tok ∈ pyFindall m6 (pyUpper s), ∃ a b, tok = a ++ '/' :: b ∧
      AllDigits a ∧ a ≠ [] ∧ AllDigits b ∧ b ≠ []) := by
  constructor
  · exact fold6_eq_sel6 (pyFindall m6 (pyUpper s)) (tokensRegles1a5 (pyUpper s))
  · intro tok h
    obtain ⟨pre, rest, r2, lc, hsplit, hm⟩ := findallAux_sound
      (fun _ _ _ _ _ h => m6_consumes h) ((pyUpper s).length + 1) none
      (pyUpper s) tok h
    obtain ⟨a, b, _, htok, ha, hane, hb, hbne, _, _, _⟩ := m6_eq_some hm
    exact ⟨a, b, htok, ha, hane, hb, hbne⟩

theorem C6_witness :
    toL "1/2" ∈ pyFindall m6 (pyUpper (toL "LOT 1/2")) ∧
    (∃ a b, toL "1/2" = a ++ '/' :: b ∧ AllDigits a ∧ a ≠ [] ∧
      AllDigits b ∧ b ≠ []) ∧
    extraire_grammage_volume (toL "LOT 1/2") = [toL "1/2"] ∧
    extraire_grammage_volume (toL "1/2L 1/2") = [toL "1/2L"] :=
  ⟨by decide, (C6_rule6_containment (toL "LOT 1/2")).2 (toL "1/2") (by decide),
    by decide, by decide⟩

/-! ## Claim C5 -/

/-- Keep the first occurrence of every string, in first-seen order. -/
def firstSeen : List (List Char) → List (List Char)
  | [] => []
  | x :: xs => x :: firstSeen (xs.filter (fun y => !(y == x)))
termination_by l => l.length
decreasing_by
  simp only [List.length_cons]
  exact Nat.lt_succ_of_le (List.length_filter_le _ _)

theorem pyDedup_go : ∀ (l acc : List (List Char)),
    l.foldl (fun acc gv => if acc.contains gv then acc else acc ++ [gv]) acc =
      acc ++ firstSeen (l.filter (fun y => !(acc.contains y))) := by
  intro l
  induction l with
  | nil =>
    intro acc
    simp [firstSeen]
  | cons x xs ih =>
    intro acc
    simp only [List.foldl_cons]
    by_cases hx : acc.contains x = true
    · rw [if_pos hx, ih]
      have e : List.filter (fun y => !(acc.contains y)) (x :: xs) =
          List.filter (fun y => !(acc.contains y)) xs := by
        rw [List.filter_cons, hx]
        simp
      rw [e]
    · rw [if_neg hx, ih]
      have e : List.filter (fun y => !(acc.contains y)) (x :: xs) =
          x :: List.filter (fun y => !(acc.contains y)) xs := by
        have hx' : acc.contains x = false := by simpa using hx
        rw [List.filter_cons, hx']
        simp
      rw [e, firstSeen]
      have hfil : (xs.filter (fun y => !(acc.contains y))).filter
          (fun y => !(y == x)) = xs.filter (fun y => !((acc ++ [x]).contains y)) := by
        rw [List.filter_filter]
        apply List.filter_congr
        intro y _
        by_cases h1 : y ∈ acc <;> by_cases h2 : y = x <;> simp [h1, h2]
      rw [hfil]
      simp

theorem pyDedup_eq_firstSeen (l : List (List Char)) : pyDedup l = firstSeen l := by
  unfold pyDedup
  rw [pyDedup_go]
  simp only [List.nil_append]
  congr 1
  apply List.filter_eq_self.mpr
  intro y _
  simp [List.contains_nil]

theorem firstSeen_subset : ∀ (l : List (List Char)) (y : List Char),
    y ∈ firstSeen l → y ∈ l := by
  intro l
  induction l using firstSeen.induct with
  | case1 =>
    intro y h
    simp [firstSeen] at h
  | case2 x xs ih =>
    intro y h
    rw [firstSeen] at h
    rcases List.mem_cons.mp h with rfl | h
    · simp
    · have := ih y h
      simp only [List.mem_filter] at this
      simp [this.1]

theorem firstSeen_nodup : ∀ (l : List (List Char)), (firstSeen l).Nodup := by
  intro l
  induction l using firstSeen.induct with
  | case1 => simp [firstSeen]
  | case2 x xs ih =>
    rw [firstSeen]
    refine List.nodup_cons.mpr ⟨?_, ih⟩
    intro hmem
    have := firstSeen_subset _ x hmem
    simp only [List.mem_filter] at this
    simpa using this.2

/-- C5: the quantity list never contains duplicates, and it equals the
first-seen selection (first occurrence kept, in discovery order) of the raw
token list produced by rules 1→6. -/
theorem C5_dedup_order (s : List Char) :
    (extraire_grammage_volume s).Nodup ∧
    extraire_grammage_volume s = firstSeen (tokensAvantDedup (pyUpper s)) := by
  unfold extraire_grammage_volume
  rw [pyDedup_eq_firstSeen]
  exact ⟨firstSeen_nodup _, rfl⟩

/-! ## Claim C7 -/

/-- C7: sanitization is idempotent — for every string `x`,
`sanitize (sanitize x) = sanitize x`; re-sanitizing a sanitized text yields
the same text. -/
theorem C7_sanitize_idempotent (s : List Char) :
    supprimer_accents_et_caracteres_speciaux
        (supprimer_accents_et_caracteres_speciaux s) =
      supprimer_accents_et_caracteres_speciaux s :=
  san_of_sanForm (sanForm_san s)

end Libelle
